import Mathlib

/-!
# Double Strike chess puzzle generator: a shallow embedding

This file embeds the `DoubleStrikeChessGenerator` class of the ChessPrac
repository (file `double-strike.ts`, plus the client-side `fenToBoard`
decoder of `double-strike-chess.tsx`) into Lean, and proves properties of
the embedded program.

Modelling conventions:
* `Math.random()` is modelled as consuming the head of an explicit list of
  rationals; the contract of `Math.random` is that every produced value
  lies in `[0, 1)`, which appears as the `ValidRand` hypothesis where the
  behaviour depends on it.  An exhausted list yields `0` (a legal
  `Math.random` value), so universally quantifying over lists covers every
  finite prefix behaviour of a real random stream.
* The mutable class fields become a `GenState` record that is threaded
  explicitly; JavaScript `Map`s become insertion-ordered association lists
  (`Map.set` updates in place or appends, `Map.prototype.entries` yields
  insertion order), because `generate` observes the entry order.
* Exceptions thrown and caught inside `generate` become `Except`-style
  results that carry the state at the throw point (the caught exception
  leaves all mutations made so far in place, which the source relies on).
* The `while` loops of `generate` are bounded by the source's own counters
  (`maxLocalAttempts = 100`, `maxGlobalAttempts = 10000`, placement
  attempts `20`), so they are embedded as structural recursion on that
  counter.  The only unbounded loop in the source is `hasLineOfSight`,
  which is embedded with explicit fuel returning `Option Bool`
  (`none` = the loop did not terminate within the fuel); it is proved
  below that fuel 8 is never exhausted on the calls the program makes.
-/

/-- The six piece kinds: `'K' | 'Q' | 'R' | 'B' | 'N' | 'P'`. -/
inductive SimplePiece
  | K | Q | R | B | N | P
deriving DecidableEq, Repr

open SimplePiece

/-- The single-letter rendering of a piece kind (the `SimplePiece` string). -/
def pieceChar : SimplePiece → Char
  | K => 'K'
  | Q => 'Q'
  | R => 'R'
  | B => 'B'
  | N => 'N'
  | P => 'P'

/-- `Position = { x: number; y: number }`; `x` is the file, `y` the row index
with `y = 0` the topmost row.  Coordinates produced by the program are the
values `Math.floor(Math.random() * n)` with `Math.random() ∈ [0, 1)`, hence
natural numbers. -/
structure Position where
  x : Nat
  y : Nat
deriving DecidableEq, Repr

/-- A solution move record (`Move` in the source).  `fromSq`/`toSq` embed the
source's `from`/`to` fields (`from` is a Lean keyword).  `pieceId` embeds the
source's decimal-string piece identifier by the underlying counter value. -/
structure Move where
  fromSq : Position
  toSq : Position
  captured : SimplePiece
  piece : SimplePiece
  pieceId : Nat
  wasPromotion : Bool
deriving DecidableEq, Repr

/-- The 8×8 grid `(SimplePiece | null)[][]`, row-major: `board[y][x]`. -/
abbrev Board : Type := List (List (Option SimplePiece))

/-- `Array(8).fill(null).map(() => Array(8).fill(null))`. -/
def emptyBoard : Board := List.replicate 8 (List.replicate 8 none)

/-- `this.board[p.y][p.x]`.  Out-of-range reads return `none`; the program
only reads in-range cells (positions come from `Math.floor(r * 8)` with
`r ∈ [0, 1)` or from the `0 ≤ x, y < 8` candidate scan). -/
def boardGet (b : Board) (p : Position) : Option SimplePiece :=
  (b.getD p.y []).getD p.x none

/-- `this.board[p.y][p.x] = v`.  Out-of-range writes are dropped
(`List.set` out of range is the identity); the program only writes
in-range cells. -/
def boardSet (b : Board) (p : Position) (v : Option SimplePiece) : Board :=
  b.set p.y ((b.getD p.y []).set p.x v)

/-- `this.isSquareEmpty(pos)`. -/
def isSquareEmpty (b : Board) (pos : Position) : Bool :=
  boardGet b pos = none

/-- The number of occupied cells of the grid (the quantity the mutable
counter `this.pieceCount` tracks). -/
def countPieces (b : Board) : Nat :=
  (b.flatten.filterMap id).length

/-- `this.board.flat().some(cell => cell === 'K')`. -/
def hasKing (b : Board) : Bool :=
  b.flatten.any (· = some K)

/-- The number of kings on the grid. -/
def kingCount (b : Board) : Nat :=
  (b.flatten.filterMap id).count K

/-- One step of the `hasLineOfSight` `while` loop, with fuel.  `none` means
the loop did not finish within the fuel; it is proved below that the loop
finishes within fuel 8 whenever the squares are on a common line inside the
board (which holds at every call the program makes). -/
def hasLineOfSightAux (b : Board) (stepX stepY tx ty : Int) :
    Nat → Int → Int → Option Bool
  | 0, _, _ => none
  | fuel + 1, x, y =>
    if x = tx && y = ty then
      some true
    else if (b.getD y.toNat []).getD x.toNat none ≠ none then
      some false
    else
      hasLineOfSightAux b stepX stepY tx ty fuel (x + stepX) (y + stepY)

/-- `this.hasLineOfSight(from, to)`: walks from `from` (exclusive) toward
`to` in unit steps of the componentwise sign of the offset, returning
`false` iff some strictly intermediate square is occupied. -/
def hasLineOfSight (b : Board) (fromSq toSq : Position) : Option Bool :=
  let dx : Int := (toSq.x : Int) - (fromSq.x : Int)
  let dy : Int := (toSq.y : Int) - (fromSq.y : Int)
  let stepX : Int := if dx = 0 then 0 else dx / |dx|
  let stepY : Int := if dy = 0 then 0 else dy / |dy|
  hasLineOfSightAux b stepX stepY (toSq.x : Int) (toSq.y : Int) 8
    ((fromSq.x : Int) + stepX) ((fromSq.y : Int) + stepY)

/-- `this.isValidMove(from, to, piece, isBackwardGeneration)`.
`dx = Math.abs(from.x - to.x)`, `dy = to.y - from.y` (positive = down the
board).  For the sliding pieces the pattern test short-circuits `&&` before
the line-of-sight walk; a line-of-sight walk that would not terminate
(impossible on the calls the program makes, proved below) counts as
`false`. -/
def isValidMove (b : Board) (fromSq toSq : Position) (piece : SimplePiece)
    (isBackwardGeneration : Bool) : Bool :=
  let dx : Nat := ((fromSq.x : Int) - (toSq.x : Int)).natAbs
  let dy : Int := (toSq.y : Int) - (fromSq.y : Int)
  match piece with
  | P =>
    if isBackwardGeneration then dx = 1 && dy = 1 else dx = 1 && dy = -1
  | N => (dx = 2 && dy.natAbs = 1) || (dx = 1 && dy.natAbs = 2)
  | B => dx = dy.natAbs && hasLineOfSight b fromSq toSq = some true
  | R => (dx = 0 || dy.natAbs = 0) && hasLineOfSight b fromSq toSq = some true
  | Q =>
    (dx = dy.natAbs || dx = 0 || dy.natAbs = 0) &&
      hasLineOfSight b fromSq toSq = some true
  | K => dx ≤ 1 && dy.natAbs ≤ 1

/-- `this.positionToAlgebraic(pos)`: file letter from `x`, rank `8 - y`. -/
def positionToAlgebraic (pos : Position) : String :=
  String.mk [Char.ofNat (97 + pos.x)] ++ Nat.repr (8 - pos.y)

/-- Insertion-ordered lookup: `Map.prototype.get`, `undefined ↦ none`. -/
def mapGet {α : Type} (m : List (Nat × α)) (k : Nat) : Option α :=
  (m.find? (fun e => e.1 = k)).map (·.2)

/-- `Map.prototype.set`: updates an existing key in place (preserving its
insertion position) or appends a new entry. -/
def mapSet {α : Type} (m : List (Nat × α)) (k : Nat) (v : α) :
    List (Nat × α) :=
  if m.any (fun e => e.1 = k) then
    m.map (fun e => if e.1 = k then (k, v) else e)
  else
    m ++ [(k, v)]

/-- The replay loop of `this.validateSolution()`: plays the recorded moves
on `boardCopy` while counting per-identity moves, returning the final copy
or `none` if some check fails.  The `isValidMove` call inside the loop uses
`this.board` (the field `b`, unchanged during validation) for its
line-of-sight reads, not the evolving copy — exactly as the source does. -/
def replayMoves (b : Board) :
    Board → List (Nat × Nat) → List Move → Option Board
  | copy, _, [] => some copy
  | copy, counts, m :: rest =>
    let fromPiece := boardGet copy m.fromSq
    let toPiece := boardGet copy m.toSq
    if fromPiece = none ∨ fromPiece ≠ some m.piece ∨
        toPiece = none ∨ toPiece ≠ some m.captured then
      none
    else if ¬ isValidMove b m.fromSq m.toSq m.piece false then
      none
    else if (mapGet counts m.pieceId).getD 0 ≥ 2 then
      none
    else
      replayMoves b (boardSet (boardSet copy m.toSq (some m.piece)) m.fromSq none)
        (mapSet counts m.pieceId ((mapGet counts m.pieceId).getD 0 + 1)) rest

/-- `this.validateSolution()`, as a function of the initial board and the
recorded solution: replay all moves on a copy, then require exactly one
remaining piece, and — if the initial board holds a king — that the
survivor is the king. -/
def validateSolution (b : Board) (solution : List Move) : Bool :=
  match replayMoves b b [] solution with
  | none => false
  | some copy =>
    if (copy.flatten.filterMap id).length ≠ 1 then false
    else if hasKing b && (copy.flatten.filterMap id).head? ≠ some K then false
    else true

/-- One row of `getFEN`: the characters after `row.map(cell => cell ? cell :
'1').join('')`, with every maximal run of `'1'`s replaced by its decimal
length (`replace(/1+/g, m => m.length)`).  The second argument is the count
of pending `'1'`s of the run being scanned. -/
def rleOnes : List Char → Nat → List Char
  | [], 0 => []
  | [], n + 1 => (Nat.repr (n + 1)).data
  | c :: cs, n =>
    if c = '1' then rleOnes cs (n + 1)
    else (if n = 0 then [] else (Nat.repr n).data) ++ c :: rleOnes cs 0

/-- The character a board cell contributes before run-length encoding. -/
def cellChar : Option SimplePiece → Char
  | none => '1'
  | some p => pieceChar p

/-- The characters of one rank of `this.getFEN()`. -/
def rowFenChars (row : List (Option SimplePiece)) : List Char :=
  rleOnes (row.map cellChar) 0

/-- `this.getFEN()`: ranks joined by `'/'`.  The join of single-character-
separated strings is embedded at the character level. -/
def getFEN (b : Board) : String :=
  String.mk (List.intercalate ['/'] (b.map rowFenChars))

/-- The algebraic rendering of one solution move, as `this.getSolution()`
produces it: for a pawn, `from[0] + 'x' + to` with `'=' + move.piece`
appended when `wasPromotion` (note: `move.piece` — which in this branch is
the pawn itself); otherwise `move.piece + from + 'x' + to`. -/
def moveNotationStr (m : Move) : String :=
  let fromAlg := positionToAlgebraic m.fromSq
  let toAlg := positionToAlgebraic m.toSq
  if m.piece = P then
    let base := String.mk [Char.ofNat (97 + m.fromSq.x)] ++ "x" ++ toAlg
    if m.wasPromotion then base ++ "=" ++ String.mk [pieceChar m.piece]
    else base
  else
    String.mk [pieceChar m.piece] ++ fromAlg ++ "x" ++ toAlg

/-- `this.getSolution()`. -/
def getSolution (solution : List Move) : List String :=
  solution.map moveNotationStr

/-! ## The generator state and its random search -/

/-- A rational value carried as an unnormalized integer fraction.  The
numbers the program computes with are `Math.random()` outputs (dyadic
rationals in `[0, 1)`) combined by `+`, `-`, `*`, `/` and compared — all of
which is represented exactly by integer fractions with positive
denominators.  (Mathlib's normalized `Rat` is not used because its
arithmetic is `@[irreducible]`, which would block the concrete evaluation
of the embedded program.) -/
structure Frac where
  num : Int
  den : Int
deriving DecidableEq, Repr

instance : OfNat Frac n := ⟨⟨n, 1⟩⟩

instance : NatCast Frac := ⟨fun n => ⟨n, 1⟩⟩

instance : Mul Frac := ⟨fun a b => ⟨a.num * b.num, a.den * b.den⟩⟩

instance : Add Frac := ⟨fun a b => ⟨a.num * b.den + b.num * a.den, a.den * b.den⟩⟩

instance : Sub Frac := ⟨fun a b => ⟨a.num * b.den - b.num * a.den, a.den * b.den⟩⟩

instance : Div Frac := ⟨fun a b => ⟨a.num * b.den, a.den * b.num⟩⟩

/-- Order on fractions, valid for the positive denominators the embedding
builds. -/
instance : LE Frac := ⟨fun a b => a.num * b.den ≤ b.num * a.den⟩

instance : LT Frac := ⟨fun a b => a.num * b.den < b.num * a.den⟩

instance (a b : Frac) : Decidable (a ≤ b) :=
  inferInstanceAs (Decidable (a.num * b.den ≤ b.num * a.den))

instance (a b : Frac) : Decidable (a < b) :=
  inferInstanceAs (Decidable (a.num * b.den < b.num * a.den))

/-- The rational number a fraction denotes. -/
def Frac.val (f : Frac) : ℚ :=
  (f.num : ℚ) / (f.den : ℚ)

/-- `Math.floor` of the denoted value (floor division; the denominators the
embedding builds are positive). -/
def Frac.floor (f : Frac) : Int :=
  f.num.fdiv f.den

/-- The explicit stream of `Math.random()` values; the `Math.random`
contract is `0 ≤ r < 1`, captured by `ValidRand`. -/
abbrev RandStream : Type := List Frac

/-- Consume one `Math.random()` value.  An exhausted list keeps producing
`0`, itself a legal value, so all-lists quantification covers all streams. -/
def randNext : RandStream → Frac × RandStream
  | [] => (⟨0, 1⟩, [])
  | r :: rs => (r, rs)

/-- Every value of the stream obeys the `Math.random()` contract
(`0 ≤ r < 1`, with the positive denominator the representation assumes). -/
def ValidRand (rand : RandStream) : Prop :=
  ∀ r ∈ rand, 0 < r.den ∧ 0 ≤ r.num ∧ r.num < r.den

instance : DecidablePred ValidRand := fun rand =>
  inferInstanceAs (Decidable (∀ r ∈ rand, 0 < r.den ∧ 0 ≤ r.num ∧ r.num < r.den))

/-- `Math.floor` applied to a nonnegative quantity (`r * n` with
`0 ≤ r < 1`), as the natural number the program uses it for. -/
def jsFloorNat (q : Frac) : Nat :=
  q.floor.toNat

/-- The mutable fields of `DoubleStrikeChessGenerator`. -/
structure GenState where
  board : Board
  solution : List Move
  pieceCount : Nat
  moveCounts : List (Nat × Nat)
  nextPieceId : Nat
  pieceLocations : List (Nat × Position)
  finalPiece : SimplePiece
  lastUsedPiece : Option SimplePiece
deriving DecidableEq

/-- `PIECE_WEIGHTS`. -/
def PIECE_WEIGHTS : SimplePiece → Frac
  | K => 100
  | P => 3
  | N => 4
  | B => 4
  | R => 2
  | Q => 1

/-- The key order of the `PIECE_WEIGHTS` object literal, as
`Object.entries` enumerates it. -/
def pieceWeightKeys : List SimplePiece := [K, P, N, B, R, Q]

/-- The `[piece, weight]` entry list `getRandomPiece` builds: keys filtered
by `!excludeKing || piece !== 'K'`, the weight of the most recently drawn
kind multiplied by `0.1`. -/
def weightEntries (excludeKing : Bool) (lastUsedPiece : Option SimplePiece) :
    List (SimplePiece × Frac) :=
  (pieceWeightKeys.filter (fun piece => !excludeKing || piece ≠ K)).map
    (fun piece =>
      (piece,
        if some piece = lastUsedPiece then PIECE_WEIGHTS piece * (1 / 10)
        else PIECE_WEIGHTS piece))

/-- The selection scan of `getRandomPiece`: subtract weights until the
running value drops to `≤ 0`. -/
def pickWeighted : List (SimplePiece × Frac) → Frac → Option SimplePiece
  | [], _ => none
  | (piece, weight) :: rest, random =>
    if random - weight ≤ 0 then some piece else pickWeighted rest (random - weight)

/-- `this.getRandomPiece(excludeKing)`: one weighted draw, recording the
drawn kind in `lastUsedPiece`; the unreachable fallback returns `'P'`. -/
def getRandomPiece (s : GenState) (excludeKing : Bool) (rand : RandStream) :
    SimplePiece × GenState × RandStream :=
  let weights := weightEntries excludeKing s.lastUsedPiece
  let totalWeight := (weights.map (·.2)).foldl (fun sum weight => sum + weight) 0
  let out := randNext rand
  match pickWeighted weights (out.1 * totalWeight) with
  | some piece => (piece, { s with lastUsedPiece := some piece }, out.2)
  | none => (P, s, out.2)

/-- `this.getRandomQuadrant()`. -/
def getRandomQuadrant (rand : RandStream) : Position × RandStream :=
  let out1 := randNext rand
  let quadrant := jsFloorNat (out1.1 * 4)
  let out2 := randNext out1.2
  let x := jsFloorNat (out2.1 * 4) + quadrant % 2 * 4
  let out3 := randNext out2.2
  let y := jsFloorNat (out3.1 * 4) + quadrant / 2 * 4
  (⟨x, y⟩, out3.2)

/-- `this.randomPosition()`: 30% quadrant-based, otherwise uniform cell. -/
def randomPosition (rand : RandStream) : Position × RandStream :=
  let out := randNext rand
  if out.1 < 3 / 10 then getRandomQuadrant out.2
  else
    let out1 := randNext out.2
    let out2 := randNext out1.2
    (⟨jsFloorNat (out1.1 * 8), jsFloorNat (out2.1 * 8)⟩, out2.2)

/-- `this.placePiece(piece, position)`: refuses a pawn on row `0` (throws —
embedded as `Except.error`, thrown before any mutation), otherwise draws a
fresh identity, writes the cell, bumps the count and zeroes the ledger
entry of the new identity. -/
def placePiece (s : GenState) (piece : SimplePiece) (position : Position) :
    Except Unit (Nat × GenState) :=
  if piece = P && position.y = 0 then Except.error ()
  else
    let pieceId := s.nextPieceId
    Except.ok (pieceId,
      { s with
        nextPieceId := s.nextPieceId + 1
        board := boardSet s.board position (some piece)
        pieceCount := s.pieceCount + 1
        moveCounts := mapSet s.moveCounts pieceId 0 })

/-- `this.removePiece(position)`.  (`pieceCount--` on a `Nat`; every call
the program makes is on an occupied cell, so the count is positive.) -/
def removePiece (s : GenState) (position : Position) : GenState :=
  { s with
    board := boardSet s.board position none
    pieceCount := s.pieceCount - 1 }

/-- `this.hasExceededMoveLimit(pieceId)`. -/
def hasExceededMoveLimit (s : GenState) (pieceId : Nat) : Bool :=
  (mapGet s.moveCounts pieceId).getD 0 ≥ 2

/-- `this.incrementMoveCount(pieceId)`. -/
def incrementMoveCount (s : GenState) (pieceId : Nat) : GenState :=
  { s with
    moveCounts :=
      mapSet s.moveCounts pieceId ((mapGet s.moveCounts pieceId).getD 0 + 1) }

/-- The result record of `findValidCapturePosition`. -/
structure CaptureResult where
  position : Position
  promotedPiece : Option SimplePiece
deriving DecidableEq, Repr

/-- The `for (let y ...) for (let x ...)` scan order of the board. -/
def scanPositions : List Position :=
  (List.range 8).flatMap (fun y => (List.range 8).map (fun x => ⟨x, y⟩))

/-- The promotion choices `['Q', 'R', 'B', 'N']`. -/
def promotionPieces : List SimplePiece := [Q, R, B, N]

/-- The per-square test of the `findValidCapturePosition` scan: skip a
king-hosting square, then require an empty square reachable under the
backward rule. -/
def captureEligible (b : Board) (fromSq : Position) (piece : SimplePiece)
    (toSq : Position) : Bool :=
  !(boardGet b toSq = some K) && isSquareEmpty b toSq &&
    isValidMove b fromSq toSq piece true

/-- The `candidates` array collected by the scan (in `y`-then-`x` order). -/
def captureCandidates (b : Board) (fromSq : Position) (piece : SimplePiece) :
    List Position :=
  scanPositions.filter (fun toSq =>
    captureEligible b fromSq piece toSq && !(piece = P && toSq.y = 0))

/-- The `promotionCandidates` array collected by the scan. -/
def capturePromotionCandidates (b : Board) (fromSq : Position)
    (piece : SimplePiece) : List Position :=
  scanPositions.filter (fun toSq =>
    captureEligible b fromSq piece toSq && (piece = P && toSq.y = 0))

/-- The concatenation `[...candidates, ...promotionCandidates]`. -/
def captureAllMoves (b : Board) (fromSq : Position) (piece : SimplePiece) :
    List Position :=
  captureCandidates b fromSq piece ++ capturePromotionCandidates b fromSq piece

/-- `this.findValidCapturePosition(from, piece)`: collect the empty squares
reachable under the backward rule (king-hosting squares are skipped), a
pawn's row-0 squares separately as promotion candidates; prefer promotions
for a pawn, else draw from all collected squares, promoting if a pawn
landed on row 0.  The first consumed random value picks the square, a
second one (consumed only when promoting) picks the promoted kind. -/
def findValidCapturePosition (b : Board) (fromSq : Position)
    (piece : SimplePiece) (rand : RandStream) : Option CaptureResult × RandStream :=
  if piece = P && !(capturePromotionCandidates b fromSq piece).isEmpty then
    (some ⟨(capturePromotionCandidates b fromSq piece).getD
        (jsFloorNat ((randNext rand).1 *
          ((capturePromotionCandidates b fromSq piece).length : Frac))) ⟨0, 0⟩,
      some (promotionPieces.getD (jsFloorNat ((randNext (randNext rand).2).1 * 4)) P)⟩,
      (randNext (randNext rand).2).2)
  else if (captureCandidates b fromSq piece).isEmpty &&
      (capturePromotionCandidates b fromSq piece).isEmpty then
    (none, rand)
  else if piece = P && ((captureAllMoves b fromSq piece).getD
      (jsFloorNat ((randNext rand).1 *
        ((captureAllMoves b fromSq piece).length : Frac))) ⟨0, 0⟩).y = 0 then
    (some ⟨(captureAllMoves b fromSq piece).getD
        (jsFloorNat ((randNext rand).1 *
          ((captureAllMoves b fromSq piece).length : Frac))) ⟨0, 0⟩,
      some (promotionPieces.getD (jsFloorNat ((randNext (randNext rand).2).1 * 4)) P)⟩,
      (randNext (randNext rand).2).2)
  else
    (some ⟨(captureAllMoves b fromSq piece).getD
        (jsFloorNat ((randNext rand).1 *
          ((captureAllMoves b fromSq piece).length : Frac))) ⟨0, 0⟩, none⟩,
      (randNext rand).2)

/-- The `// Reset everything for a fresh attempt` block at the top of each
global attempt of `generate`.  Note: the source resets `board`, `solution`,
`pieceCount`, `moveCounts` (`clear()`), `nextPieceId` and `lastUsedPiece`,
but does NOT touch `this.pieceLocations`. -/
def resetState (s : GenState) : GenState :=
  { s with
    board := emptyBoard
    solution := []
    pieceCount := 0
    moveCounts := []
    nextPieceId := 1
    lastUsedPiece := none }

/-- The "place a brand-new piece" `while (placementAttempts < 20)` loop that
runs when no piece can still move.  `Except.error` = a thrown placement
error (pawn on row 0), carrying the state at the throw point. -/
def placementLoop : Nat → GenState → RandStream → Except (GenState × RandStream) (GenState × RandStream)
  | 0, s, rand => Except.ok (s, rand)
  | fuel + 1, s, rand =>
    let pos := randomPosition rand
    if isSquareEmpty s.board pos.1 then
      let out := getRandomPiece s true pos.2
      match placePiece out.2.1 out.1 pos.1 with
      | Except.error _ => Except.error (out.2.1, out.2.2)
      | Except.ok res =>
        Except.ok
          ({ res.2 with pieceLocations := mapSet res.2.pieceLocations res.1 pos.1 },
            out.2.2)
    else placementLoop fuel s pos.2

/-- The inner `while (this.pieceCount < numPieces && localAttempts <
maxLocalAttempts)` loop of `generate`; the fuel is the remaining local
attempt budget (100 at entry).  `Except.error` = a thrown placement error. -/
def innerLoop (numPieces : Nat) :
    Nat → GenState → RandStream → Except (GenState × RandStream) (GenState × RandStream)
  | 0, s, rand => Except.ok (s, rand)
  | fuel + 1, s, rand =>
    if s.pieceCount < numPieces then
      if (s.pieceLocations.filter (fun e => !hasExceededMoveLimit s e.1)).isEmpty then
        match placementLoop 20 s rand with
        | Except.error out => Except.error out
        | Except.ok out => innerLoop numPieces fuel out.1 out.2
      else
        let movablePieces :=
          s.pieceLocations.filter (fun e => !hasExceededMoveLimit s e.1)
        let r := randNext rand
        let entry := movablePieces.getD (jsFloorNat (r.1 * (movablePieces.length : Frac))) (0, ⟨0, 0⟩)
        match boardGet s.board entry.2 with
        | none =>
          -- `currentPiece` is `null` (possible via a stale `pieceLocations`
          -- entry): `isValidMove`'s `switch` hits `default` on every square,
          -- so `findValidCapturePosition` returns `null` without consuming
          -- randomness, and the iteration `continue`s.
          innerLoop numPieces fuel s r.2
        | some currentPiece =>
          let cap := findValidCapturePosition s.board entry.2 currentPiece r.2
          match cap.1 with
          | none => innerLoop numPieces fuel s cap.2
          | some captureResult =>
            let s1 := removePiece s entry.2
            let movingPiece := captureResult.promotedPiece.getD currentPiece
            match placePiece s1 movingPiece captureResult.position with
            | Except.error _ => Except.error (s1, cap.2)
            | Except.ok res =>
              let s2 :=
                { res.2 with pieceLocations := mapSet res.2.pieceLocations entry.1 captureResult.position }
              let s3 := incrementMoveCount s2 entry.1
              let out := getRandomPiece s3 true cap.2
              match placePiece out.2.1 out.1 entry.2 with
              | Except.error _ => Except.error (out.2.1, out.2.2)
              | Except.ok res2 =>
                let s4 :=
                  { res2.2 with pieceLocations := mapSet res2.2.pieceLocations res2.1 entry.2 }
                let s5 :=
                  { s4 with solution := s4.solution ++
                    [⟨captureResult.position, entry.2, out.1, movingPiece,
                      entry.1, captureResult.promotedPiece.isSome⟩] }
                innerLoop numPieces fuel s5 out.2.2
    else Except.ok (s, rand)

/-- One global attempt: the body of the `try` block of `generate` (final
piece placement, inner loop, success check), with every caught exception
turned into `false`.  The returned state is the exact field state at exit —
kept, not rolled back, by the `catch`. -/
def attempt (numPieces : Nat) (s : GenState) (rand : RandStream) :
    Bool × GenState × RandStream :=
  let pos := randomPosition rand
  if s.finalPiece = P && (pos.1.y = 0 || pos.1.y = 7) then
    (false, s, pos.2)
  else
    match placePiece s s.finalPiece pos.1 with
    | Except.error _ => (false, s, pos.2)
    | Except.ok res =>
      let s1 := { res.2 with pieceLocations := mapSet res.2.pieceLocations res.1 pos.1 }
      match innerLoop numPieces 100 s1 pos.2 with
      | Except.error out => (false, out.1, out.2)
      | Except.ok out =>
        if out.1.pieceCount = numPieces then
          if validateSolution out.1.board out.1.solution.reverse then
            (true, { out.1 with solution := out.1.solution.reverse }, out.2)
          else (false, { out.1 with solution := out.1.solution.reverse }, out.2)
        else (false, out.1, out.2)

/-- The `while (globalAttempts < maxGlobalAttempts)` loop of `generate`:
each iteration resets the per-attempt fields and runs one attempt. -/
def generateLoop (numPieces : Nat) :
    Nat → GenState → RandStream → Bool × GenState × RandStream
  | 0, s, rand => (false, s, rand)
  | fuel + 1, s, rand =>
    let out := attempt numPieces (resetState s) rand
    if out.1 then out else generateLoop numPieces fuel out.2.1 out.2.2

/-- `generate(numPieces)`: up to 10000 global attempts; `false` embeds the
terminal `'Could not generate a valid puzzle after maximum attempts'`
error. -/
def generate (numPieces : Nat) (s : GenState) (rand : RandStream) :
    Bool × GenState × RandStream :=
  generateLoop numPieces 10000 s rand

/-- The constructor: a supplied final piece kind is stored as-is, otherwise
one is drawn with `getRandomPiece(false)` (king included). -/
def mkGenerator (finalPiece : Option SimplePiece) (rand : RandStream) :
    GenState × RandStream :=
  let base : GenState :=
    { board := emptyBoard
      solution := []
      pieceCount := 0
      moveCounts := []
      nextPieceId := 1
      pieceLocations := []
      finalPiece := P
      lastUsedPiece := none }
  match finalPiece with
  | some piece => ({ base with finalPiece := piece }, rand)
  | none =>
    let out := getRandomPiece base false rand
    ({ out.2.1 with finalPiece := out.1 }, out.2.2)

/-! ## The client-side FEN decoder (`double-strike-chess.tsx`) -/

/-- The client's per-piece record: `{ id: string; type: SimplePiece }`.
The `char as SimplePiece` cast of the source is unchecked, so the kind is
kept as the raw character. -/
structure TrackedPiece where
  id : String
  type : Char
deriving DecidableEq, Repr

/-- `parseInt(char)` for a single character: its digit value, or `none`
standing for `NaN`. -/
def charDigit (c : Char) : Option Nat :=
  if c.isDigit then some (c.toNat - 48) else none

/-- One row of `fenToBoard`: a piece letter appends one tracked piece
(consuming one `pieceCounter` value), a digit appends that many `null`s. -/
def fenRowCells : List Char → Nat → List (Option TrackedPiece) × Nat
  | [], k => ([], k)
  | c :: cs, k =>
    match charDigit c with
    | none =>
      let (rest, k') := fenRowCells cs (k + 1)
      (some ⟨"piece_" ++ Nat.repr k, c⟩ :: rest, k')
    | some d =>
      let (rest, k') := fenRowCells cs k
      (List.replicate d none ++ rest, k')

/-- The row map of `fenToBoard`, threading `pieceCounter`. -/
def fenRows : List (List Char) → Nat → List (List (Option TrackedPiece))
  | [], _ => []
  | row :: rows, k =>
    let (cells, k') := fenRowCells row k
    cells :: fenRows rows k'

/-- `fenToBoard(fen)` of the client: `fen.split(' ')[0].split('/')`, each
row decoded run-length-inverse.  The single-character splits are embedded
at the character level. -/
def fenToBoard (fen : String) : List (List (Option TrackedPiece)) :=
  fenRows ((fen.data.splitOn ' ').headD [] |>.splitOn '/') 0

/-! ## Infrastructure lemmas: streams, floors, boards, counting -/

/-- The `Math.random()` contract for a single value. -/
def ValidFrac (f : Frac) : Prop :=
  0 < f.den ∧ 0 ≤ f.num ∧ f.num < f.den

theorem validFrac_zero : ValidFrac ⟨0, 1⟩ := by
  refine ⟨by decide, by decide, by decide⟩

theorem validRand_head {rand : RandStream} (h : ValidRand rand) :
    ValidFrac (randNext rand).1 := by
  cases rand with
  | nil => exact validFrac_zero
  | cons r rs => exact h r (List.mem_cons_self r rs)

theorem validRand_tail {rand : RandStream} (h : ValidRand rand) :
    ValidRand (randNext rand).2 := by
  cases rand with
  | nil => exact h
  | cons r rs => exact fun x hx => h x (List.mem_cons_of_mem r hx)

theorem jsFloorNat_mul_lt {r : Frac} (hr : ValidFrac r) {n : Nat} (hn : 0 < n)
    {g : Frac} (hg : g = ⟨n, 1⟩) : jsFloorNat (r * g) < n := by
  subst hg
  obtain ⟨hden, hnum0, hnum⟩ := hr
  have hmul : r * (⟨n, 1⟩ : Frac) = ⟨r.num * n, r.den * 1⟩ := rfl
  rw [jsFloorNat, hmul, Frac.floor]
  simp only [mul_one]
  rw [Int.fdiv_eq_ediv _ (le_of_lt hden)]
  have hlt : r.num * n / r.den < (n : Int) := by
    rw [Int.ediv_lt_iff_lt_mul hden]
    calc r.num * (n : Int) < r.den * n := by
          apply mul_lt_mul_of_pos_right hnum
          exact_mod_cast hn
      _ = (n : Int) * r.den := by ring
  have hge : (0 : Int) ≤ r.num * n / r.den :=
    Int.ediv_nonneg (by positivity) (le_of_lt hden)
  omega

/-- Well-formed grid: 8 rows of 8 cells, as the source's board always is. -/
def BoardWF (b : Board) : Prop :=
  b.length = 8 ∧ ∀ row ∈ b, row.length = 8

theorem emptyBoard_wf : BoardWF emptyBoard := by
  constructor
  · rfl
  · intro row hrow
    rw [List.eq_of_mem_replicate hrow]
    rfl

theorem boardSet_wf {b : Board} (h : BoardWF b) (p : Position) (v : Option SimplePiece) :
    BoardWF (boardSet b p v) := by
  obtain ⟨hlen, hrows⟩ := h
  by_cases hy : p.y < b.length
  · constructor
    · rw [boardSet, List.length_set, hlen]
    · intro row hrow
      rw [boardSet] at hrow
      rcases List.mem_or_eq_of_mem_set hrow with hmem | heq
      · exact hrows row hmem
      · subst heq
        rw [List.length_set, List.getD_eq_getElem _ _ hy]
        exact hrows _ (List.getElem_mem hy)
  · rw [boardSet, List.set_eq_of_length_le (by omega)]
    exact ⟨hlen, hrows⟩

theorem boardGet_some_range {b : Board} {p : Position} {v : SimplePiece}
    (h : boardGet b p = some v) :
    p.y < b.length ∧ p.x < (b.getD p.y []).length := by
  rw [boardGet] at h
  by_cases hy : p.y < b.length
  · refine ⟨hy, ?_⟩
    by_cases hx : p.x < (b.getD p.y []).length
    · exact hx
    · rw [List.getD_eq_default (b.getD p.y []) _ (by omega)] at h
      exact absurd h (by simp)
  · rw [List.getD_eq_default b _ (by omega)] at h
    simp at h

theorem getD_set_self {α : Type} {l : List α} {i : Nat} (a d : α)
    (h : i < l.length) : (l.set i a).getD i d = a := by
  rw [List.getD_eq_getElem _ _ (by rw [List.length_set]; exact h)]
  exact List.getElem_set_self _

theorem getD_set_ne {α : Type} {l : List α} {i j : Nat} (a d : α)
    (h : i ≠ j) : (l.set i a).getD j d = l.getD j d := by
  by_cases hj : j < l.length
  · rw [List.getD_eq_getElem _ _ (by rw [List.length_set]; exact hj),
      List.getD_eq_getElem _ _ hj]
    exact List.getElem_set_ne h _
  · rw [List.getD_eq_default _ _ (by rw [List.length_set]; omega),
      List.getD_eq_default _ _ (by omega)]

theorem boardGet_set_self {b : Board} {p : Position} (v : Option SimplePiece)
    (hy : p.y < b.length) (hx : p.x < (b.getD p.y []).length) :
    boardGet (boardSet b p v) p = v := by
  rw [boardGet, boardSet, getD_set_self _ _ hy, getD_set_self _ _ hx]

theorem boardGet_set_ne {b : Board} {p q : Position} (v : Option SimplePiece)
    (hne : p ≠ q) :
    boardGet (boardSet b p v) q = boardGet b q := by
  rw [boardGet, boardSet, boardGet]
  by_cases hy : p.y = q.y
  · have hx : p.x ≠ q.x := by
      intro hx
      exact hne (by cases p; cases q; simp_all)
    by_cases hyr : p.y < b.length
    · rw [hy, getD_set_self _ _ (by omega), getD_set_ne _ _ hx]
    · rw [List.set_eq_of_length_le (by omega)]
  · rw [getD_set_ne _ _ hy]

/-- Generic cell-weighted sum over a row. -/
def rowWeight (g : Option SimplePiece → Nat) (row : List (Option SimplePiece)) : Nat :=
  (row.map g).sum

/-- Generic cell-weighted sum over a board. -/
def boardWeight (g : Option SimplePiece → Nat) (b : Board) : Nat :=
  (b.map (rowWeight g)).sum

theorem rowWeight_set (g : Option SimplePiece → Nat)
    {row : List (Option SimplePiece)} {x : Nat} (hx : x < row.length)
    (v : Option SimplePiece) :
    rowWeight g (row.set x v) + g (row.getD x none) = rowWeight g row + g v := by
  rw [List.set_eq_take_cons_drop _ hx]
  have hsplit : row = row.take x ++ row[x] :: row.drop (x + 1) := by
    conv_lhs => rw [← List.take_append_drop x row]
    rw [List.drop_eq_getElem_cons hx]
  rw [List.getD_eq_getElem _ _ hx]
  conv_rhs => rw [hsplit]
  simp only [rowWeight, List.map_append, List.map_cons, List.sum_append, List.sum_cons]
  omega

theorem boardWeight_set (g : Option SimplePiece → Nat) {b : Board} {p : Position}
    (hy : p.y < b.length) (hx : p.x < (b.getD p.y []).length)
    (v : Option SimplePiece) :
    boardWeight g (boardSet b p v) + g (boardGet b p) = boardWeight g b + g v := by
  rw [boardSet, boardGet]
  rw [List.set_eq_take_cons_drop _ (by omega)]
  have hsplit : b = b.take p.y ++ b[p.y] :: b.drop (p.y + 1) := by
    conv_lhs => rw [← List.take_append_drop p.y b]
    rw [List.drop_eq_getElem_cons hy]
  conv_rhs => rw [hsplit]
  simp only [boardWeight, List.map_append, List.map_cons, List.sum_append, List.sum_cons]
  have hget : b.getD p.y [] = b[p.y] := List.getD_eq_getElem _ _ hy
  rw [hget] at hx ⊢
  rw [List.getD_eq_getElem _ _ hx]
  have := rowWeight_set g hx v
  rw [List.getD_eq_getElem _ _ hx] at this
  omega

/-- `countPieces` as a cell-weighted sum. -/
theorem countPieces_eq_boardWeight (b : Board) :
    countPieces b = boardWeight (fun c => c.toList.length) b := by
  rw [countPieces, boardWeight]
  induction b with
  | nil => rfl
  | cons row rows ih =>
    simp only [List.flatten_cons, List.filterMap_append, List.length_append,
      List.map_cons, List.sum_cons, ih]
    congr 1
    rw [rowWeight]
    induction row with
    | nil => rfl
    | cons c cs ihr =>
      cases c <;> simp_all [List.filterMap_cons] <;> omega

/-- `kingCount` as a cell-weighted sum. -/
theorem kingCount_eq_boardWeight (b : Board) :
    kingCount b = boardWeight (fun c => if c = some K then 1 else 0) b := by
  rw [kingCount, boardWeight]
  induction b with
  | nil => rfl
  | cons row rows ih =>
    simp only [List.flatten_cons, List.filterMap_append, List.map_cons, List.sum_cons, ih,
      List.count_append]
    congr 1
    rw [rowWeight]
    induction row with
    | nil => rfl
    | cons c cs ihr =>
      rcases c with _ | p
      · simpa [List.filterMap_cons] using ihr
      · by_cases hp : p = K <;>
          simp_all [List.filterMap_cons, List.count_cons] <;> omega

theorem countPieces_set_some {b : Board} {p : Position}
    (hy : p.y < b.length) (hx : p.x < (b.getD p.y []).length)
    (hnone : boardGet b p = none) (v : SimplePiece) :
    countPieces (boardSet b p (some v)) = countPieces b + 1 := by
  have h := boardWeight_set (fun c => c.toList.length) hy hx (some v)
  rw [hnone] at h
  rw [countPieces_eq_boardWeight, countPieces_eq_boardWeight]
  simpa using h

theorem countPieces_set_none {b : Board} {p : Position} {w : SimplePiece}
    (hsome : boardGet b p = some w) :
    countPieces (boardSet b p none) + 1 = countPieces b := by
  obtain ⟨hy, hx⟩ := boardGet_some_range hsome
  have h := boardWeight_set (fun c => c.toList.length) hy hx none
  rw [hsome] at h
  rw [countPieces_eq_boardWeight, countPieces_eq_boardWeight]
  simpa using h

theorem countPieces_set_some_of_some {b : Board} {p : Position} {w : SimplePiece}
    (hsome : boardGet b p = some w) (v : SimplePiece) :
    countPieces (boardSet b p (some v)) = countPieces b := by
  obtain ⟨hy, hx⟩ := boardGet_some_range hsome
  have h := boardWeight_set (fun c => c.toList.length) hy hx (some v)
  rw [hsome] at h
  rw [countPieces_eq_boardWeight, countPieces_eq_boardWeight]
  simpa using h

/-- One replay execution step (`boardCopy[to] = piece; boardCopy[from] =
null` on cells that both hold pieces) removes exactly one piece — also when
`from = to`, where the cell ends up `null`. -/
theorem countPieces_replay_step {copy : Board} {m : Move} {fromPiece toPiece : SimplePiece}
    (hfrom : boardGet copy m.fromSq = some fromPiece)
    (hto : boardGet copy m.toSq = some toPiece) :
    countPieces (boardSet (boardSet copy m.toSq (some m.piece)) m.fromSq none) + 1 =
      countPieces copy := by
  have h1 : countPieces (boardSet copy m.toSq (some m.piece)) = countPieces copy :=
    countPieces_set_some_of_some hto m.piece
  have hget2 : boardGet (boardSet copy m.toSq (some m.piece)) m.fromSq =
      some (if m.fromSq = m.toSq then m.piece else fromPiece) := by
    by_cases heq : m.fromSq = m.toSq
    · obtain ⟨hy, hx⟩ := boardGet_some_range hto
      rw [if_pos heq, heq]
      exact boardGet_set_self _ hy hx
    · rw [if_neg heq, boardGet_set_ne _ (fun h => heq h.symm), hfrom]
  have h2 := countPieces_set_none hget2
  omega

theorem find?_map_update {α : Type} {m : List (Nat × α)} {k : Nat} (v : α)
    (hmem : m.any (fun e => e.1 = k) = true) :
    (m.map (fun e => if e.1 = k then (k, v) else e)).find? (fun e => e.1 = k) =
      some (k, v) := by
  induction m with
  | nil => simp at hmem
  | cons a as ih =>
    by_cases ha : a.1 = k
    · simp [List.find?_cons, ha]
    · simp only [List.any_cons, Bool.or_eq_true, decide_eq_true_eq] at hmem
      rcases hmem with h | h
    
      · exact absurd h ha
      · simp only [List.map_cons, if_neg ha]
        rw [List.find?_cons_of_neg _ (by simpa using ha)]
        exact ih h

theorem mapGet_set_self {α : Type} (m : List (Nat × α)) (k : Nat) (v : α) :
    mapGet (mapSet m k v) k = some v := by
  rw [mapSet]
  by_cases h : m.any (fun e => e.1 = k)
  · rw [if_pos h, mapGet, find?_map_update v h]
    rfl
  · rw [if_neg h, mapGet, List.find?_append]
    have hnone : m.find? (fun e => e.1 = k) = none := by
      rw [List.find?_eq_none]
      intro e hmem
      simp only [List.any_eq_true] at h
      push_neg at h
      simpa using h e hmem
    rw [hnone]
    simp

theorem mapGet_set_ne {α : Type} (m : List (Nat × α)) {k k' : Nat} (v : α)
    (h : k' ≠ k) : mapGet (mapSet m k v) k' = mapGet m k' := by
  rw [mapSet]
  by_cases hmem : m.any (fun e => e.1 = k)
  · rw [if_pos hmem, mapGet, mapGet]
    clear hmem
    induction m with
    | nil => rfl
    | cons a as ih =>
      by_cases ha : a.1 = k
      · have hk' : ¬ a.1 = k' := by omega
        simp only [List.map_cons, if_pos ha]
        rw [List.find?_cons_of_neg _ (by simp; omega),
          List.find?_cons_of_neg _ (by simpa using hk')]
        exact ih
      · simp only [List.map_cons, if_neg ha]
        by_cases hk' : a.1 = k'
        · rw [List.find?_cons_of_pos _ (by simpa using hk'),
            List.find?_cons_of_pos _ (by simpa using hk')]
        · rw [List.find?_cons_of_neg _ (by simpa using hk'),
            List.find?_cons_of_neg _ (by simpa using hk')]
          exact ih
  · rw [if_neg hmem, mapGet, mapGet, List.find?_append]
    cases hfind : m.find? (fun e => e.1 = k') with
    | some e => simp
    | none =>
      simp only [Option.none_or]
      rw [List.find?_cons_of_neg _ (by simp; omega), List.find?_nil]

theorem mem_mapSet {α : Type} {m : List (Nat × α)} {k : Nat} {v : α} {e : Nat × α}
    (h : e ∈ mapSet m k v) : e = (k, v) ∨ e ∈ m := by
  rw [mapSet] at h
  by_cases hmem : m.any (fun e => e.1 = k)
  · rw [if_pos hmem] at h
    obtain ⟨a, hmem', ha⟩ := List.mem_map.mp h
    by_cases hak : a.1 = k
    · rw [if_pos hak] at ha
      exact Or.inl ha.symm
    · rw [if_neg hak] at ha
      exact Or.inr (ha ▸ hmem')
  · rw [if_neg hmem] at h
    rcases List.mem_append.mp h with h' | h'
    · exact Or.inr h'
    · simp at h'
      exact Or.inl h'

/-- The general accounting identity of one replay execution step: for any
cell weight `g` vanishing on empty cells, the step spends exactly the
weight of the captured cell (the source cell holds `m.piece`, as the
validator has checked). -/
theorem boardWeight_replay_step (g : Option SimplePiece → Nat) (hg : g none = 0)
    {copy : Board} {m : Move} {toPiece : SimplePiece}
    (hfrom : boardGet copy m.fromSq = some m.piece)
    (hto : boardGet copy m.toSq = some toPiece) :
    boardWeight g (boardSet (boardSet copy m.toSq (some m.piece)) m.fromSq none) +
      g (some toPiece) = boardWeight g copy := by
  obtain ⟨hy, hx⟩ := boardGet_some_range hto
  have h1 := boardWeight_set g hy hx (some m.piece)
  rw [hto] at h1
  have hget2 : boardGet (boardSet copy m.toSq (some m.piece)) m.fromSq = some m.piece := by
    by_cases heq : m.fromSq = m.toSq
    · rw [heq]
      exact boardGet_set_self _ hy hx
    · rw [boardGet_set_ne _ (fun h => heq h.symm), hfrom]
  obtain ⟨hy2, hx2⟩ := boardGet_some_range hget2
  have h2 := boardWeight_set g hy2 hx2 none
  rw [hget2] at h2
  omega

theorem kingCount_replay_step {copy : Board} {m : Move} {toPiece : SimplePiece}
    (hfrom : boardGet copy m.fromSq = some m.piece)
    (hto : boardGet copy m.toSq = some toPiece) :
    kingCount (boardSet (boardSet copy m.toSq (some m.piece)) m.fromSq none) +
      (if toPiece = K then 1 else 0) = kingCount copy := by
  have h := boardWeight_replay_step (fun c => if c = some K then 1 else 0) rfl hfrom hto
  rw [kingCount_eq_boardWeight, kingCount_eq_boardWeight]
  simpa using h

/-- Inversion of one accepted replay step: all four validator checks
passed and the recursion continued on the updated copy and ledger. -/
theorem replayMoves_cons_inv {b copy : Board} {counts : List (Nat × Nat)}
    {m : Move} {rest : List Move} {copy' : Board}
    (h : replayMoves b copy counts (m :: rest) = some copy') :
    boardGet copy m.fromSq = some m.piece ∧ boardGet copy m.toSq = some m.captured ∧
    isValidMove b m.fromSq m.toSq m.piece false = true ∧
    (mapGet counts m.pieceId).getD 0 < 2 ∧
    replayMoves b (boardSet (boardSet copy m.toSq (some m.piece)) m.fromSq none)
      (mapSet counts m.pieceId ((mapGet counts m.pieceId).getD 0 + 1)) rest = some copy' := by
  rw [replayMoves] at h
  split_ifs at h with h1 h2 h3
  · push_neg at h1
    obtain ⟨-, hfp, -, htp⟩ := h1
    push_neg at h2
    exact ⟨hfp, htp, h2, by omega, h⟩

/-- Replaying `n` accepted moves removes exactly `n` pieces in total. -/
theorem replayMoves_count {b : Board} :
    ∀ (moves : List Move) (copy : Board) (counts : List (Nat × Nat)) (copy' : Board),
      replayMoves b copy counts moves = some copy' →
      countPieces copy' + moves.length = countPieces copy := by
  intro moves
  induction moves with
  | nil =>
    intro copy counts copy' h
    rw [replayMoves] at h
    cases h
    simp
  | cons m rest ih =>
    intro copy counts copy' h
    obtain ⟨hfrom, hto, hval, hcnt, hrec⟩ := replayMoves_cons_inv h
    have hstep := boardWeight_replay_step (fun c => c.toList.length) rfl hfrom hto
    have := ih _ _ _ hrec
    rw [← countPieces_eq_boardWeight, ← countPieces_eq_boardWeight] at hstep
    simp only [Option.toList_some, List.length_cons, List.length_nil] at hstep
    simp only [List.length_cons]
    omega

/-- Every prefix of a successfully replayed move list also replays
successfully. -/
theorem replayMoves_take {b : Board} :
    ∀ (moves : List Move) (copy : Board) (counts : List (Nat × Nat)) (copy' : Board),
      replayMoves b copy counts moves = some copy' →
      ∀ i : Nat, ∃ ci, replayMoves b copy counts (moves.take i) = some ci := by
  intro moves
  induction moves with
  | nil =>
    intro copy counts copy' h i
    simp only [List.take_nil]
    exact ⟨copy, rfl⟩
  | cons m rest ih =>
    intro copy counts copy' h i
    obtain ⟨hfrom, hto, hval, hcnt, hrec⟩ := replayMoves_cons_inv h
    cases i with
    | zero => exact ⟨copy, rfl⟩
    | succ j =>
      rw [List.take_succ_cons]
      obtain ⟨ci, hci⟩ := ih _ _ _ hrec j
      refine ⟨ci, ?_⟩
      rw [replayMoves]
      rw [if_neg (by simp [hfrom, hto]), if_neg (by simp [hval]), if_neg (by omega)]
      exact hci

/-- The per-identity two-move cap enforced by the replay ledger: a
successful replay uses each identity at most `2 - (already counted)`
times. -/
theorem replayMoves_id_bound {b : Board} :
    ∀ (moves : List Move) (copy : Board) (counts : List (Nat × Nat)) (copy' : Board),
      replayMoves b copy counts moves = some copy' →
      ∀ pieceId : Nat,
        (moves.filter (fun m => m.pieceId = pieceId)).length ≤
          2 - (mapGet counts pieceId).getD 0 := by
  intro moves
  induction moves with
  | nil =>
    intro copy counts copy' h pieceId
    simp
  | cons m rest ih =>
    intro copy counts copy' h pieceId
    obtain ⟨hfrom, hto, hval, hcnt, hrec⟩ := replayMoves_cons_inv h
    have hrest := ih _ _ _ hrec pieceId
    by_cases hid : m.pieceId = pieceId
    · subst hid
      rw [mapGet_set_self] at hrest
      simp only [Option.getD_some] at hrest
      simp only [List.filter_cons]
      rw [if_pos (by simp)]
      simp only [List.length_cons]
      omega
    · rw [mapGet_set_ne _ _ (fun h' => hid h'.symm)] at hrest
      simp only [List.filter_cons]
      rw [if_neg (by simpa using hid)]
      exact hrest

theorem kingCount_pos_of_get_K {copy : Board} {p : Position}
    (h : boardGet copy p = some K) : 1 ≤ kingCount copy := by
  obtain ⟨hy, hx⟩ := boardGet_some_range h
  rw [boardGet] at h
  have hrow : copy.getD p.y [] ∈ copy := by
    rw [List.getD_eq_getElem _ _ hy]
    exact List.getElem_mem hy
  have hcell : (some K) ∈ copy.getD p.y [] := by
    rw [← h]
    rw [List.getD_eq_getElem _ _ hx]
    exact List.getElem_mem hx
  have hmem : K ∈ (copy.flatten.filterMap id) :=
    List.mem_filterMap.mpr ⟨some K, List.mem_flatten.mpr ⟨_, hrow, hcell⟩, rfl⟩
  exact List.count_pos_iff.mpr hmem

/-- Once no king remains on the copy, replay keeps it that way. -/
theorem replayMoves_kingCount_zero {b : Board} :
    ∀ (moves : List Move) (copy : Board) (counts : List (Nat × Nat)) (copy' : Board),
      kingCount copy = 0 →
      replayMoves b copy counts moves = some copy' →
      kingCount copy' = 0 := by
  intro moves
  induction moves with
  | nil =>
    intro copy counts copy' h0 h
    rw [replayMoves] at h
    cases h
    exact h0
  | cons m rest ih =>
    intro copy counts copy' h0 h
    obtain ⟨hfrom, hto, hval, hcnt, hrec⟩ := replayMoves_cons_inv h
    have hstep := kingCount_replay_step hfrom hto
    refine ih _ _ _ ?_ hrec
    split_ifs at hstep <;> omega

/-- On a board with at most one king, a replay that contains a move whose
captured piece is a king ends with zero kings on the copy (the single king
was consumed), and the initial copy did hold at least one king. -/
theorem replayMoves_king_captured {b : Board} :
    ∀ (moves : List Move) (copy : Board) (counts : List (Nat × Nat)) (copy' : Board),
      kingCount copy ≤ 1 →
      replayMoves b copy counts moves = some copy' →
      (∃ m ∈ moves, m.captured = K) →
      kingCount copy' = 0 ∧ 1 ≤ kingCount copy := by
  intro moves
  induction moves with
  | nil =>
    intro copy counts copy' hle h hex
    simp at hex
  | cons m rest ih =>
    intro copy counts copy' hle h hex
    obtain ⟨hfrom, hto, hval, hcnt, hrec⟩ := replayMoves_cons_inv h
    have hstep := kingCount_replay_step hfrom hto
    by_cases hcap : m.captured = K
    · rw [if_pos hcap] at hstep
      have hpos : 1 ≤ kingCount copy := kingCount_pos_of_get_K (hcap ▸ hto)
      refine ⟨?_, hpos⟩
      exact replayMoves_kingCount_zero _ _ _ _ (by omega) hrec
    · rcases hex with ⟨m', hm', hcap'⟩
      rcases List.mem_cons.mp hm' with rfl | hm'
      · exact absurd hcap' hcap
      · have hle2 : kingCount (boardSet (boardSet copy m.toSq (some m.piece)) m.fromSq none) ≤ 1 := by
          split_ifs at hstep <;> omega
        obtain ⟨hz, hpos⟩ := ih _ _ _ hle2 hrec ⟨m', hm', hcap'⟩
        refine ⟨hz, ?_⟩
        split_ifs at hstep <;> omega

theorem hasKing_iff_kingCount {b : Board} : hasKing b = true ↔ 1 ≤ kingCount b := by
  rw [hasKing, List.any_eq_true]
  constructor
  · rintro ⟨c, hc, hck⟩
    have hck' : c = some K := by simpa using hck
    subst hck'
    exact List.count_pos_iff.mpr (List.mem_filterMap.mpr ⟨some K, hc, rfl⟩)
  · intro h
    obtain ⟨c, hc, hck⟩ := List.mem_filterMap.mp (List.count_pos_iff.mp h)
    cases c with
    | none => simp at hck
    | some p =>
      refine ⟨some p, hc, ?_⟩
      simpa using hck

/-- Unfolding of a successful validation: the replay succeeded, exactly one
piece remains, and — when the initial board holds a king — the survivor is
the king. -/
theorem validateSolution_spec {b : Board} {solution : List Move}
    (h : validateSolution b solution = true) :
    ∃ copy', replayMoves b b [] solution = some copy' ∧
      countPieces copy' = 1 ∧
      (hasKing b = true → (copy'.flatten.filterMap id).head? = some K) := by
  rw [validateSolution] at h
  cases hrep : replayMoves b b [] solution with
  | none => rw [hrep] at h; cases h
  | some copy' =>
    rw [hrep] at h
    dsimp only at h
    split_ifs at h with h1 h2
    refine ⟨copy', rfl, ?_, ?_⟩
    · rw [countPieces]
      omega
    · intro hking
      by_contra hhead
      apply h2
      rw [hking]
      simp only [Bool.true_and]
      simpa using hhead

/-! ## Generator invariants -/

/-- An on-board position. -/
def PosIn (p : Position) : Prop := p.x < 8 ∧ p.y < 8

/-- Facts recorded for every move of the built solution: the captured kind
is never a king (fresh draws exclude it), source and destination differ,
and both squares are on the board. -/
def MoveOK (m : Move) : Prop :=
  m.captured ≠ K ∧ m.fromSq ≠ m.toSq ∧ PosIn m.fromSq ∧ PosIn m.toSq

/-- The generator invariant: a well-formed 8×8 grid whose occupancy count
is exactly the tracked `pieceCount`, a ledger bounded by two moves per
identity, and a solution list of sound move records. -/
def GenInv (s : GenState) : Prop :=
  BoardWF s.board ∧ countPieces s.board = s.pieceCount ∧
  (∀ e ∈ s.moveCounts, e.2 ≤ 2) ∧
  (∀ m ∈ s.solution, MoveOK m)

theorem rowLen_of_wf {b : Board} (h : BoardWF b) {y : Nat} (hy : y < 8) :
    (b.getD y []).length = 8 := by
  obtain ⟨hlen, hrows⟩ := h
  rw [List.getD_eq_getElem _ _ (by omega)]
  exact hrows _ (List.getElem_mem (by omega))

theorem boardGet_emptyBoard (p : Position) : boardGet emptyBoard p = none := by
  rw [boardGet]
  have hrow : emptyBoard.getD p.y [] = [] ∨ emptyBoard.getD p.y [] = List.replicate 8 none := by
    by_cases hy : p.y < 8
    · right
      rw [emptyBoard, List.getD_eq_getElem _ _ (by simpa using hy)]
      apply List.getElem_replicate
    · left
      rw [emptyBoard, List.getD_eq_default _ _ (by simpa [emptyBoard] using hy)]
  rcases hrow with h | h <;> rw [h]
  · rfl
  · by_cases hx : p.x < 8
    · rw [List.getD_eq_getElem _ _ (by simpa using hx)]
      apply List.getElem_replicate
    · rw [List.getD_eq_default _ _ (by simpa using hx)]

theorem countPieces_emptyBoard : countPieces emptyBoard = 0 := by
  decide

theorem genInv_resetState (s : GenState) : GenInv (resetState s) := by
  refine ⟨emptyBoard_wf, ?_, ?_, ?_⟩
  · rw [resetState]
    exact countPieces_emptyBoard
  · intro e he
    rw [resetState] at he
    simp at he
  · intro m hm
    rw [resetState] at hm
    simp at hm

theorem scanPositions_in {p : Position} (h : p ∈ scanPositions) : PosIn p := by
  rw [scanPositions] at h
  obtain ⟨y, hy, hmem⟩ := List.mem_flatMap.mp h
  obtain ⟨x, hx, rfl⟩ := List.mem_map.mp hmem
  exact ⟨List.mem_range.mp hx, List.mem_range.mp hy⟩

theorem getRandomQuadrant_in {rand : RandStream} (h : ValidRand rand) :
    PosIn (getRandomQuadrant rand).1 ∧ ValidRand (getRandomQuadrant rand).2 := by
  have h1 := validRand_head h
  have h1' := validRand_tail h
  have h2 := validRand_head h1'
  have h2' := validRand_tail h1'
  have h3 := validRand_head h2'
  have h3' := validRand_tail h2'
  have hq := jsFloorNat_mul_lt h1 (by omega : 0 < 4) (g := (4 : Frac)) rfl
  have hx := jsFloorNat_mul_lt h2 (by omega : 0 < 4) (g := (4 : Frac)) rfl
  have hy := jsFloorNat_mul_lt h3 (by omega : 0 < 4) (g := (4 : Frac)) rfl
  rw [getRandomQuadrant]
  refine ⟨⟨?_, ?_⟩, h3'⟩
  · show jsFloorNat ((randNext (randNext rand).2).1 * 4) +
      jsFloorNat ((randNext rand).1 * 4) % 2 * 4 < 8
    omega
  · show jsFloorNat ((randNext (randNext (randNext rand).2).2).1 * 4) +
      jsFloorNat ((randNext rand).1 * 4) / 2 * 4 < 8
    omega

theorem randomPosition_in {rand : RandStream} (h : ValidRand rand) :
    PosIn (randomPosition rand).1 ∧ ValidRand (randomPosition rand).2 := by
  rw [randomPosition]
  have h0' := validRand_tail h
  split_ifs with hlt
  · exact getRandomQuadrant_in h0'
  · have h1 := validRand_head h0'
    have h1' := validRand_tail h0'
    have h2 := validRand_head h1'
    have h2' := validRand_tail h1'
    exact ⟨⟨jsFloorNat_mul_lt h1 (by omega) (g := (8 : Frac)) rfl,
      jsFloorNat_mul_lt h2 (by omega) (g := (8 : Frac)) rfl⟩, h2'⟩

theorem pickWeighted_mem {entries : List (SimplePiece × Frac)} {random : Frac}
    {piece : SimplePiece} (h : pickWeighted entries random = some piece) :
    piece ∈ entries.map (·.1) := by
  induction entries generalizing random with
  | nil => rw [pickWeighted] at h; cases h
  | cons e rest ih =>
    rw [pickWeighted] at h
    split_ifs at h with hle
    · cases h
      exact List.mem_cons_self _ _
    · exact List.mem_cons_of_mem _ (ih h)

/-- `getRandomPiece` with `excludeKing = true` never yields a king. -/
theorem getRandomPiece_ne_K (s : GenState) (rand : RandStream) :
    (getRandomPiece s true rand).1 ≠ K := by
  rw [getRandomPiece]
  cases hpick : pickWeighted (weightEntries true s.lastUsedPiece)
      ((randNext rand).1 * ((weightEntries true s.lastUsedPiece).map (·.2)).foldl
        (fun sum weight => sum + weight) 0) with
  | none => simp only []; intro hK; cases hK
  | some piece =>
    simp only []
    have hmem := pickWeighted_mem hpick
    rw [weightEntries] at hmem
    rw [List.map_map] at hmem
    intro hK
    subst hK
    simp [pieceWeightKeys] at hmem

/-- `getRandomPiece` only changes `lastUsedPiece`; it consumes exactly one
random value. -/
theorem getRandomPiece_state (s : GenState) (excludeKing : Bool) (rand : RandStream) :
    ∃ lu, (getRandomPiece s excludeKing rand).2.1 = { s with lastUsedPiece := lu } ∧
      (getRandomPiece s excludeKing rand).2.2 = (randNext rand).2 := by
  rw [getRandomPiece]
  cases hpick : pickWeighted (weightEntries excludeKing s.lastUsedPiece)
      ((randNext rand).1 * ((weightEntries excludeKing s.lastUsedPiece).map (·.2)).foldl
        (fun sum weight => sum + weight) 0) with
  | none =>
    refine ⟨s.lastUsedPiece, ?_, rfl⟩
    simp only []
  | some piece => exact ⟨some piece, rfl, rfl⟩

/-- Successful `placePiece` inversion: the state changes it makes. -/
theorem placePiece_ok {s : GenState} {piece : SimplePiece} {position : Position}
    {res : Nat × GenState} (h : placePiece s piece position = Except.ok res) :
    res.1 = s.nextPieceId ∧
    res.2 = { s with
      nextPieceId := s.nextPieceId + 1
      board := boardSet s.board position (some piece)
      pieceCount := s.pieceCount + 1
      moveCounts := mapSet s.moveCounts s.nextPieceId 0 } := by
  rw [placePiece] at h
  split_ifs at h
  cases h
  exact ⟨rfl, rfl⟩

theorem genInv_placePiece {s : GenState} {piece : SimplePiece} {position : Position}
    {res : Nat × GenState} (hinv : GenInv s) (hin : PosIn position)
    (hempty : boardGet s.board position = none)
    (h : placePiece s piece position = Except.ok res) :
    GenInv res.2 ∧ res.2.solution = s.solution ∧
      res.2.pieceCount = s.pieceCount + 1 ∧
      res.2.board = boardSet s.board position (some piece) ∧
      res.2.lastUsedPiece = s.lastUsedPiece ∧
      res.2.finalPiece = s.finalPiece ∧
      res.2.pieceLocations = s.pieceLocations := by
  obtain ⟨hres1, hres2⟩ := placePiece_ok h
  obtain ⟨hwf, hcount, hledger, hsol⟩ := hinv
  have hy : position.y < s.board.length := by
    rw [hwf.1]
    exact hin.2
  have hx : position.x < (s.board.getD position.y []).length := by
    rw [rowLen_of_wf hwf hin.2]
    exact hin.1
  refine ⟨⟨?_, ?_, ?_, ?_⟩, ?_, ?_, ?_, ?_, ?_, ?_⟩ <;> rw [hres2]
  · exact boardSet_wf hwf _ _
  · rw [countPieces_set_some hy hx hempty piece, hcount]
  · intro e he
    rcases mem_mapSet he with rfl | he'
    · omega
    · exact hledger e he'
  · exact hsol

theorem genInv_removePiece {s : GenState} {position : Position} {w : SimplePiece}
    (hinv : GenInv s) (hsome : boardGet s.board position = some w) :
    GenInv (removePiece s position) ∧
      (removePiece s position).solution = s.solution ∧
      (removePiece s position).pieceCount + 1 = s.pieceCount ∧
      (removePiece s position).board = boardSet s.board position none := by
  obtain ⟨hwf, hcount, hledger, hsol⟩ := hinv
  have hc := countPieces_set_none hsome
  refine ⟨⟨boardSet_wf hwf _ _, ?_, hledger, hsol⟩, rfl, ?_, rfl⟩
  · rw [removePiece]
    simp only []
    omega
  · rw [removePiece]
    simp only []
    omega

theorem genInv_incrementMoveCount {s : GenState} {pieceId : Nat}
    (hinv : GenInv s) (hle : (mapGet s.moveCounts pieceId).getD 0 ≤ 1) :
    GenInv (incrementMoveCount s pieceId) := by
  obtain ⟨hwf, hcount, hledger, hsol⟩ := hinv
  refine ⟨hwf, hcount, ?_, hsol⟩
  intro e he
  rw [incrementMoveCount] at he
  simp only [] at he
  rcases mem_mapSet he with rfl | he'
  · simpa using hle
  · exact hledger e he'

theorem mem_filter_eligible {b : Board} {fromSq : Position} {piece : SimplePiece}
    {toSq : Position} {extra : Position → Bool}
    (hmem : toSq ∈ scanPositions.filter (fun t =>
      captureEligible b fromSq piece t && extra t)) :
    boardGet b toSq = none ∧ PosIn toSq ∧
      isValidMove b fromSq toSq piece true = true := by
  obtain ⟨hscan, hprop⟩ := List.mem_filter.mp hmem
  have hprops := (Bool.and_eq_true _ _).mp hprop
  rw [captureEligible] at hprops
  have he := (Bool.and_eq_true _ _).mp hprops.1
  have he2 := (Bool.and_eq_true _ _).mp he.1
  refine ⟨?_, scanPositions_in hscan, he.2⟩
  have := he2.2
  rw [isSquareEmpty] at this
  simpa using this

theorem captureAllMoves_getD_facts {b : Board} {fromSq : Position}
    {piece : SimplePiece} {r : Frac} (hr : ValidFrac r)
    (hne : ¬ ((captureCandidates b fromSq piece).isEmpty &&
      (capturePromotionCandidates b fromSq piece).isEmpty) = true) :
    boardGet b ((captureAllMoves b fromSq piece).getD
        (jsFloorNat (r * ((captureAllMoves b fromSq piece).length : Frac))) ⟨0, 0⟩) = none ∧
      PosIn ((captureAllMoves b fromSq piece).getD
        (jsFloorNat (r * ((captureAllMoves b fromSq piece).length : Frac))) ⟨0, 0⟩) ∧
      isValidMove b fromSq ((captureAllMoves b fromSq piece).getD
        (jsFloorNat (r * ((captureAllMoves b fromSq piece).length : Frac))) ⟨0, 0⟩)
        piece true = true := by
  have hlen' : 0 < (captureAllMoves b fromSq piece).length := by
    rcases Nat.eq_zero_or_pos (captureAllMoves b fromSq piece).length with hz | hp
    · exfalso
      rw [captureAllMoves, List.length_append] at hz
      apply hne
      simp only [Bool.and_eq_true, List.isEmpty_iff_length_eq_zero]
      omega
    · exact hp
  have hidx := jsFloorNat_mul_lt hr hlen'
    (g := (((captureAllMoves b fromSq piece).length : Nat) : Frac)) rfl
  have hmem : (captureAllMoves b fromSq piece).getD
      (jsFloorNat (r * ((captureAllMoves b fromSq piece).length : Frac))) ⟨0, 0⟩ ∈
      captureAllMoves b fromSq piece := by
    rw [List.getD_eq_getElem _ _ (by omega)]
    exact List.getElem_mem (by omega)
  rw [captureAllMoves] at hmem
  rcases List.mem_append.mp hmem with hm | hm
  · exact mem_filter_eligible hm
  · exact mem_filter_eligible hm

/-- `findValidCapturePosition` result facts: a produced position is an
empty on-board square that the backward rule reaches from `fromSq`. -/
theorem findValidCapturePosition_some {b : Board} {fromSq : Position}
    {piece : SimplePiece} {rand : RandStream} {cr : CaptureResult}
    (hv : ValidRand rand)
    (h : (findValidCapturePosition b fromSq piece rand).1 = some cr) :
    boardGet b cr.position = none ∧ PosIn cr.position ∧
      isValidMove b fromSq cr.position piece true = true := by
  rw [findValidCapturePosition] at h
  split_ifs at h with h1 h2 h3
  · -- pawn promotion branch
    injection h with h'
    have hlen' : 0 < (capturePromotionCandidates b fromSq piece).length := by
      have := (Bool.and_eq_true _ _).mp h1
      have h2' := this.2
      rw [Bool.not_eq_eq_eq_not, Bool.not_true, List.isEmpty_eq_false_iff_exists_mem] at h2'
      obtain ⟨x, hx⟩ := h2'
      exact List.length_pos_of_mem hx
    have hidx := jsFloorNat_mul_lt (validRand_head hv) hlen'
      (g := (((capturePromotionCandidates b fromSq piece).length : Nat) : Frac)) rfl
    have hmem : (capturePromotionCandidates b fromSq piece).getD
        (jsFloorNat ((randNext rand).1 * ((capturePromotionCandidates b fromSq piece).length : Frac))) ⟨0, 0⟩ ∈
        capturePromotionCandidates b fromSq piece := by
      rw [List.getD_eq_getElem _ _ (by omega)]
      exact List.getElem_mem (by omega)
    subst h'
    exact mem_filter_eligible hmem
  · injection h with h'
    subst h'
    exact captureAllMoves_getD_facts (validRand_head hv) h2
  · injection h with h'
    subst h'
    exact captureAllMoves_getD_facts (validRand_head hv) h2

theorem posIn_of_boardGet_some {b : Board} {p : Position} {v : SimplePiece}
    (hwf : BoardWF b) (h : boardGet b p = some v) : PosIn p := by
  obtain ⟨hy, hx⟩ := boardGet_some_range h
  have hy8 : p.y < 8 := by
    rw [hwf.1] at hy
    exact hy
  refine ⟨?_, hy8⟩
  rw [rowLen_of_wf hwf hy8] at hx
  exact hx

theorem validRand_findValidCapturePosition {b : Board} {fromSq : Position}
    {piece : SimplePiece} {rand : RandStream} (hv : ValidRand rand) :
    ValidRand (findValidCapturePosition b fromSq piece rand).2 := by
  rw [findValidCapturePosition]
  split_ifs
  · exact validRand_tail (validRand_tail hv)
  · exact hv
  · exact validRand_tail (validRand_tail hv)
  · exact validRand_tail hv

/-- The "place a brand-new piece" loop preserves the invariant; a thrown
placement error leaves the piece count unchanged. -/
theorem placementLoop_inv :
    ∀ (fuel : Nat) (s : GenState) (rand : RandStream), GenInv s → ValidRand rand →
    (∀ out, placementLoop fuel s rand = Except.ok out →
      GenInv out.1 ∧ ValidRand out.2) ∧
    (∀ out, placementLoop fuel s rand = Except.error out →
      GenInv out.1 ∧ ValidRand out.2 ∧ out.1.pieceCount = s.pieceCount ∧
        out.1.solution = s.solution ∧
        validateSolution out.1.board out.1.solution =
          validateSolution s.board s.solution) := by
  intro fuel
  induction fuel with
  | zero =>
    intro s rand hinv hv
    constructor
    · intro out h
      rw [placementLoop] at h
      cases h
      exact ⟨hinv, hv⟩
    · intro out h
      rw [placementLoop] at h
      cases h
  | succ fuel ih =>
    intro s rand hinv hv
    have hpos := randomPosition_in hv
    simp only [placementLoop]
    split_ifs with hempty
    · -- empty square found: draw a piece and place it
      obtain ⟨lu, hstate, hrand⟩ := getRandomPiece_state s true (randomPosition rand).2
      have hinv' : GenInv (getRandomPiece s true (randomPosition rand).2).2.1 := by
        rw [hstate]
        exact hinv
      have hv' : ValidRand (getRandomPiece s true (randomPosition rand).2).2.2 := by
        rw [hrand]
        exact validRand_tail hpos.2
      constructor
      · intro out h
        split at h
        next e hplace => cases h
        next res hplace =>
          cases h
          have hempty' : boardGet (getRandomPiece s true (randomPosition rand).2).2.1.board
              (randomPosition rand).1 = none := by
            rw [hstate]
            rw [isSquareEmpty] at hempty
            simpa using hempty
          obtain ⟨hinvr, -, -, -, -, -, -⟩ := genInv_placePiece hinv' hpos.1 hempty' hplace
          exact ⟨hinvr, hv'⟩
      · intro out h
        split at h
        next e hplace =>
          cases h
          refine ⟨hinv', hv', ?_, ?_, ?_⟩ <;> rw [hstate]
        next res hplace => cases h
    · -- occupied square: next placement attempt
      exact ih s (randomPosition rand).2 hinv hpos.2

theorem genInv_append_move {s : GenState} {m : Move} (h : GenInv s) (hm : MoveOK m) :
    GenInv { s with solution := s.solution ++ [m] } := by
  obtain ⟨hwf, hc, hl, hs⟩ := h
  refine ⟨hwf, hc, hl, ?_⟩
  intro m' hm'
  rcases List.mem_append.mp hm' with h' | h'
  · exact hs m' h'
  · rw [List.mem_singleton] at h'
    subst h'
    exact hm

/-- The inner relocation loop of `generate` preserves the invariant, and a
thrown placement error can only leave a state that is still short of the
target count. -/
theorem innerLoop_inv (numPieces : Nat) :
    ∀ (fuel : Nat) (s : GenState) (rand : RandStream), GenInv s → ValidRand rand →
    match innerLoop numPieces fuel s rand with
    | Except.ok out => GenInv out.1 ∧ ValidRand out.2
    | Except.error out => GenInv out.1 ∧ ValidRand out.2 ∧ out.1.pieceCount < numPieces := by
  intro fuel
  induction fuel with
  | zero =>
    intro s rand hinv hv
    rw [innerLoop]
    exact ⟨hinv, hv⟩
  | succ fuel ih =>
    intro s rand hinv hv
    simp only [innerLoop]
    split_ifs with hcnt hmv
    · -- no movable piece: try to place a brand-new one
      have hp := placementLoop_inv 20 s rand hinv hv
      cases hpl : placementLoop 20 s rand with
      | error a =>
        obtain ⟨hinv1, hv1, hc1, -, -⟩ := hp.2 a hpl
        exact ⟨hinv1, hv1, by omega⟩
      | ok a =>
        obtain ⟨hinv1, hv1⟩ := hp.1 a hpl
        exact ih a.1 a.2 hinv1 hv1
    · -- a movable piece exists: relocate it
      have hv1 : ValidRand (randNext rand).2 := validRand_tail hv
      set mv := s.pieceLocations.filter (fun e => !hasExceededMoveLimit s e.1) with hmvdef
      have hmvlen : 0 < mv.length := by
        rcases Nat.eq_zero_or_pos mv.length with hz | hpz
        · exact absurd (List.isEmpty_iff_length_eq_zero.mpr hz) hmv
        · exact hpz
      have hidx := jsFloorNat_mul_lt (validRand_head hv) hmvlen
        (g := ((mv.length : Nat) : Frac)) rfl
      set E := mv.getD (jsFloorNat ((randNext rand).1 * (mv.length : Frac))) (0, ⟨0, 0⟩) with hEdef
      have hEmem : E ∈ mv := by
        rw [hEdef, List.getD_eq_getElem _ _ (by omega)]
        exact List.getElem_mem (by omega)
      have hEcnt : (mapGet s.moveCounts E.1).getD 0 ≤ 1 := by
        have := (List.mem_filter.mp (hmvdef ▸ hEmem)).2
        rw [hasExceededMoveLimit] at this
        simp only [Bool.not_eq_eq_eq_not, Bool.not_true, decide_eq_false_iff_not] at this
        omega
      cases hget : boardGet s.board E.2 with
      | none =>
        dsimp only
        exact ih s (randNext rand).2 hinv hv1
      | some currentPiece =>
        dsimp only
        have hv2 : ValidRand (findValidCapturePosition s.board E.2 currentPiece (randNext rand).2).2 :=
          validRand_findValidCapturePosition hv1
        cases hcap : (findValidCapturePosition s.board E.2 currentPiece (randNext rand).2).1 with
        | none =>
          dsimp only
          exact ih s _ hinv hv2
        | some captureResult =>
          dsimp only
          obtain ⟨hcrempty, hcrin, hcrvalid⟩ := findValidCapturePosition_some hv1 hcap
          obtain ⟨hinv1, hsol1, hcount1, hboard1⟩ := genInv_removePiece hinv hget
          have hne : captureResult.position ≠ E.2 := by
            intro heq
            rw [heq, hget] at hcrempty
            cases hcrempty
          cases hplace1 : placePiece (removePiece s E.2)
              (captureResult.promotedPiece.getD currentPiece) captureResult.position with
          | error e =>
            dsimp only
            refine ⟨hinv1, hv2, ?_⟩
            omega
          | ok res =>
            dsimp only
            have hempty1 : boardGet (removePiece s E.2).board captureResult.position = none := by
              rw [hboard1, boardGet_set_ne _ (fun hh => hne hh.symm), hcrempty]
            obtain ⟨hinv2, hsol2, hcount2, hboard2, -, -, -⟩ :=
              genInv_placePiece hinv1 hcrin hempty1 hplace1
            obtain ⟨hresid, hres2⟩ := placePiece_ok hplace1
            have hinv2' : GenInv { res.2 with
                pieceLocations := mapSet res.2.pieceLocations E.1 captureResult.position } := hinv2
            have hinc : (mapGet { res.2 with
                pieceLocations := mapSet res.2.pieceLocations E.1 captureResult.position }.moveCounts E.1).getD 0 ≤ 1 := by
              show (mapGet res.2.moveCounts E.1).getD 0 ≤ 1
              rw [hres2]
              show (mapGet (mapSet (removePiece s E.2).moveCounts
                (removePiece s E.2).nextPieceId 0) E.1).getD 0 ≤ 1
              by_cases hid : E.1 = (removePiece s E.2).nextPieceId
              · rw [hid, mapGet_set_self]
                simp
              · rw [mapGet_set_ne _ _ hid]
                exact hEcnt
            have hinv3 := genInv_incrementMoveCount hinv2' hinc
            obtain ⟨lu, hstate4, hrand4⟩ := getRandomPiece_state (incrementMoveCount
              { res.2 with pieceLocations := mapSet res.2.pieceLocations E.1 captureResult.position } E.1)
              true (findValidCapturePosition s.board E.2 currentPiece (randNext rand).2).2
            have hEin : PosIn E.2 := posIn_of_boardGet_some hinv.1 hget
            have hinv4 : GenInv (getRandomPiece (incrementMoveCount
                { res.2 with pieceLocations := mapSet res.2.pieceLocations E.1 captureResult.position } E.1)
                true (findValidCapturePosition s.board E.2 currentPiece (randNext rand).2).2).2.1 := by
              rw [hstate4]
              exact hinv3
            have hv4 : ValidRand (getRandomPiece (incrementMoveCount
                { res.2 with pieceLocations := mapSet res.2.pieceLocations E.1 captureResult.position } E.1)
                true (findValidCapturePosition s.board E.2 currentPiece (randNext rand).2).2).2.2 := by
              rw [hrand4]
              exact validRand_tail hv2
            have hK := getRandomPiece_ne_K (incrementMoveCount
              { res.2 with pieceLocations := mapSet res.2.pieceLocations E.1 captureResult.position } E.1)
              (findValidCapturePosition s.board E.2 currentPiece (randNext rand).2).2
            have hemptyE : boardGet (getRandomPiece (incrementMoveCount
                { res.2 with pieceLocations := mapSet res.2.pieceLocations E.1 captureResult.position } E.1)
                true (findValidCapturePosition s.board E.2 currentPiece (randNext rand).2).2).2.1.board E.2 = none := by
              rw [hstate4]
              show boardGet res.2.board E.2 = none
              rw [hres2]
              show boardGet (boardSet (removePiece s E.2).board captureResult.position
                (some (captureResult.promotedPiece.getD currentPiece))) E.2 = none
              rw [boardGet_set_ne _ hne]
              show boardGet (boardSet s.board E.2 none) E.2 = none
              obtain ⟨hy, hx⟩ := boardGet_some_range hget
              exact boardGet_set_self _ hy hx
            cases hplace2 : placePiece (getRandomPiece (incrementMoveCount
                { res.2 with pieceLocations := mapSet res.2.pieceLocations E.1 captureResult.position } E.1)
                true (findValidCapturePosition s.board E.2 currentPiece (randNext rand).2).2).2.1
                (getRandomPiece (incrementMoveCount
                { res.2 with pieceLocations := mapSet res.2.pieceLocations E.1 captureResult.position } E.1)
                true (findValidCapturePosition s.board E.2 currentPiece (randNext rand).2).2).1 E.2 with
            | error e2 =>
              dsimp only
              refine ⟨hinv4, hv4, ?_⟩
              rw [hstate4]
              show res.2.pieceCount < numPieces
              omega
            | ok res2 =>
              dsimp only
              obtain ⟨hinv5, hsol5, hcount5, hboard5, -, -, -⟩ :=
                genInv_placePiece hinv4 hEin hemptyE hplace2
              have hmoveOK : MoveOK ⟨captureResult.position, E.2,
                  (getRandomPiece (incrementMoveCount
                    { res.2 with pieceLocations := mapSet res.2.pieceLocations E.1 captureResult.position } E.1)
                    true (findValidCapturePosition s.board E.2 currentPiece (randNext rand).2).2).1,
                  captureResult.promotedPiece.getD currentPiece, E.1,
                  captureResult.promotedPiece.isSome⟩ := by
                exact ⟨hK, hne, hcrin, hEin⟩
              have hinv5' : GenInv { res2.2 with
                  pieceLocations := mapSet res2.2.pieceLocations res2.1 E.2 } := hinv5
              exact ih _ _ (genInv_append_move hinv5' hmoveOK) hv4
    · -- pieceCount ≥ numPieces: the loop exits immediately
      exact ⟨hinv, hv⟩

theorem genInv_reverse {s : GenState} (h : GenInv s) :
    GenInv { s with solution := s.solution.reverse } := by
  obtain ⟨hwf, hc, hl, hs⟩ := h
  refine ⟨hwf, hc, hl, ?_⟩
  intro m hm
  exact hs m (List.mem_reverse.mp hm)

theorem validateSolution_empty : validateSolution emptyBoard [] = false := by
  decide

/-- One global attempt: the resulting state always satisfies the invariant;
a `true` outcome certifies the target count and a validated solution, while
a `false` outcome leaves a state that fails that certificate. -/
theorem attempt_spec (numPieces : Nat) (s : GenState) (rand : RandStream)
    (hv : ValidRand rand) :
    GenInv (attempt numPieces (resetState s) rand).2.1 ∧
    ValidRand (attempt numPieces (resetState s) rand).2.2 ∧
    ((attempt numPieces (resetState s) rand).1 = true →
      (attempt numPieces (resetState s) rand).2.1.pieceCount = numPieces ∧
      validateSolution (attempt numPieces (resetState s) rand).2.1.board
        (attempt numPieces (resetState s) rand).2.1.solution = true) ∧
    ((attempt numPieces (resetState s) rand).1 = false →
      ¬((attempt numPieces (resetState s) rand).2.1.pieceCount = numPieces ∧
        validateSolution (attempt numPieces (resetState s) rand).2.1.board
          (attempt numPieces (resetState s) rand).2.1.solution = true)) := by
  have hinv0 := genInv_resetState s
  have hpos := randomPosition_in hv
  simp only [attempt]
  split_ifs with hguard
  · -- pawn on a forbidden rank: the attempt fails before placing anything
    refine ⟨hinv0, hpos.2, by simp, ?_⟩
    intro _ hcl
    rw [show (resetState s).solution = [] from rfl] at hcl
    rw [show (resetState s).board = emptyBoard from rfl] at hcl
    rw [validateSolution_empty] at hcl
    exact absurd hcl.2 (by simp)
  · cases hplace : placePiece (resetState s) (resetState s).finalPiece (randomPosition rand).1 with
    | error e =>
      dsimp only
      refine ⟨hinv0, hpos.2, by simp, ?_⟩
      intro _ hcl
      rw [show (resetState s).solution = [] from rfl] at hcl
      rw [show (resetState s).board = emptyBoard from rfl] at hcl
      rw [validateSolution_empty] at hcl
      exact absurd hcl.2 (by simp)
    | ok res =>
      dsimp only
      have hempty : boardGet (resetState s).board (randomPosition rand).1 = none :=
        boardGet_emptyBoard _
      obtain ⟨hinv1, hsol1, hcount1, hboard1, -, -, -⟩ :=
        genInv_placePiece hinv0 hpos.1 hempty hplace
      have hinv1' : GenInv { res.2 with
          pieceLocations := mapSet res.2.pieceLocations res.1 (randomPosition rand).1 } := hinv1
      have hil := innerLoop_inv numPieces 100
        { res.2 with pieceLocations := mapSet res.2.pieceLocations res.1 (randomPosition rand).1 }
        (randomPosition rand).2 hinv1' hpos.2
      cases hloop : innerLoop numPieces 100
          { res.2 with pieceLocations := mapSet res.2.pieceLocations res.1 (randomPosition rand).1 }
          (randomPosition rand).2 with
      | error out =>
        rw [hloop] at hil
        dsimp only
        obtain ⟨hinv2, hv2, hc2⟩ := hil
        refine ⟨hinv2, hv2, by simp, ?_⟩
        intro _ hcl
        omega
      | ok out =>
        rw [hloop] at hil
        dsimp only
        obtain ⟨hinv2, hv2⟩ := hil
        split_ifs with hcount hval
        · -- success: count reached and the reversed solution validates
          exact ⟨genInv_reverse hinv2, hv2, fun _ => ⟨hcount, hval⟩, by simp⟩
        · -- count reached but validation failed
          refine ⟨genInv_reverse hinv2, hv2, by simp, ?_⟩
          intro _ hcl
          exact absurd hcl.2 (by simpa using hval)
        · -- count not reached within the local attempt budget
          refine ⟨hinv2, hv2, by simp, ?_⟩
          intro _ hcl
          exact absurd hcl.1 hcount

/-- The global retry loop: with a positive attempt budget, the final state
satisfies the invariant; `true` certifies a validated puzzle at the target
count, `false` (exhaustion) leaves no state satisfying that certificate. -/
theorem generateLoop_spec (numPieces : Nat) :
    ∀ (fuel : Nat) (s : GenState) (rand : RandStream), 0 < fuel → ValidRand rand →
    GenInv (generateLoop numPieces fuel s rand).2.1 ∧
    ValidRand (generateLoop numPieces fuel s rand).2.2 ∧
    ((generateLoop numPieces fuel s rand).1 = true →
      (generateLoop numPieces fuel s rand).2.1.pieceCount = numPieces ∧
      validateSolution (generateLoop numPieces fuel s rand).2.1.board
        (generateLoop numPieces fuel s rand).2.1.solution = true) ∧
    ((generateLoop numPieces fuel s rand).1 = false →
      ¬((generateLoop numPieces fuel s rand).2.1.pieceCount = numPieces ∧
        validateSolution (generateLoop numPieces fuel s rand).2.1.board
          (generateLoop numPieces fuel s rand).2.1.solution = true)) := by
  intro fuel
  induction fuel with
  | zero =>
    intro s rand hfuel hv
    omega
  | succ fuel ih =>
    intro s rand _ hv
    have ha := attempt_spec numPieces s rand hv
    simp only [generateLoop]
    split_ifs with hflag
    · exact ⟨ha.1, ha.2.1, fun _ => ha.2.2.1 hflag, fun hc => absurd hflag (by simp [hc])⟩
    · cases fuel with
      | zero =>
        rw [generateLoop]
        have hfalse : (attempt numPieces (resetState s) rand).1 = false := by
          simpa using hflag
        exact ⟨ha.1, ha.2.1, by simp, fun _ => ha.2.2.2 hfalse⟩
      | succ fuel' =>
        exact ih _ _ (by omega) ha.2.1

/-- Top-level specification of `generate`: the final state keeps the
invariant; success certifies the exact target count plus a validated
solution; failure (budget exhausted) leaves no state satisfying that
certificate. -/
theorem generate_spec (numPieces : Nat) (s : GenState) (rand : RandStream)
    (hv : ValidRand rand) :
    GenInv (generate numPieces s rand).2.1 ∧
    ((generate numPieces s rand).1 = true →
      (generate numPieces s rand).2.1.pieceCount = numPieces ∧
      validateSolution (generate numPieces s rand).2.1.board
        (generate numPieces s rand).2.1.solution = true) ∧
    ((generate numPieces s rand).1 = false →
      ¬((generate numPieces s rand).2.1.pieceCount = numPieces ∧
        validateSolution (generate numPieces s rand).2.1.board
          (generate numPieces s rand).2.1.solution = true)) := by
  have h := generateLoop_spec numPieces 10000 s rand (by omega) hv
  exact ⟨h.1, h.2.2.1, h.2.2.2⟩

/-- A concrete generator (final piece forced to a queen) and random streams
used to witness concrete executions of `generate`. -/
def demoGen : GenState := (mkGenerator (some Q) []).1

/-- A random stream on which `generate 3 demoGen` succeeds on the first
attempt: queen placed at e4, relocated twice, capturing a pawn and a
knight. -/
def demoRandStream : RandStream :=
  [⟨1, 2⟩, ⟨1, 2⟩, ⟨1, 2⟩, 0, 0, 0, 0, 0, ⟨1, 5⟩]

/-! ## Claims -/

/-- C1: for every successful `generate numPieces` run (numPieces ≥ 3, valid
random stream), the stored board holds exactly `numPieces` pieces; replaying
the stored solution from that board removes exactly one piece per move
(after `i` moves exactly `numPieces - i` pieces remain) and ends with
exactly one piece; and when the board holds a king, that survivor is the
king. -/
theorem c1_generate_success_replay (numPieces : Nat) (s : GenState)
    (rand : RandStream) (hmin : 3 ≤ numPieces) (hv : ValidRand rand)
    (hsucc : (generate numPieces s rand).1 = true) :
    countPieces (generate numPieces s rand).2.1.board = numPieces ∧
    (∀ i ≤ (generate numPieces s rand).2.1.solution.length,
      ∃ ci, replayMoves (generate numPieces s rand).2.1.board
          (generate numPieces s rand).2.1.board []
          ((generate numPieces s rand).2.1.solution.take i) = some ci ∧
        countPieces ci + i = numPieces) ∧
    (∃ c, replayMoves (generate numPieces s rand).2.1.board
        (generate numPieces s rand).2.1.board []
        (generate numPieces s rand).2.1.solution = some c ∧
      countPieces c = 1 ∧
      (hasKing (generate numPieces s rand).2.1.board = true →
        (c.flatten.filterMap id).head? = some K)) := by
  obtain ⟨hinv, hcert, -⟩ := generate_spec numPieces s rand hv
  obtain ⟨hcount, hval⟩ := hcert hsucc
  obtain ⟨c, hrep, hone, hkg⟩ := validateSolution_spec hval
  have hboard : countPieces (generate numPieces s rand).2.1.board = numPieces := by
    rw [hinv.2.1, hcount]
  refine ⟨hboard, ?_, ⟨c, hrep, hone, hkg⟩⟩
  intro i hi
  obtain ⟨ci, hci⟩ := replayMoves_take _ _ _ _ hrep i
  refine ⟨ci, hci, ?_⟩
  have := replayMoves_count _ _ _ _ hci
  rw [List.length_take] at this
  omega

/-- Witness for C1 on a concrete run: `generate 3` on the demo stream
succeeds, so its board/solution satisfy the replay guarantees. -/
theorem c1_generate_success_replay_witness :
    (3 ≤ 3 ∧ ValidRand demoRandStream ∧
      (generate 3 demoGen demoRandStream).1 = true) ∧
    (countPieces (generate 3 demoGen demoRandStream).2.1.board = 3 ∧
    (∀ i ≤ (generate 3 demoGen demoRandStream).2.1.solution.length,
      ∃ ci, replayMoves (generate 3 demoGen demoRandStream).2.1.board
          (generate 3 demoGen demoRandStream).2.1.board []
          ((generate 3 demoGen demoRandStream).2.1.solution.take i) = some ci ∧
        countPieces ci + i = 3) ∧
    (∃ c, replayMoves (generate 3 demoGen demoRandStream).2.1.board
        (generate 3 demoGen demoRandStream).2.1.board []
        (generate 3 demoGen demoRandStream).2.1.solution = some c ∧
      countPieces c = 1 ∧
      (hasKing (generate 3 demoGen demoRandStream).2.1.board = true →
        (c.flatten.filterMap id).head? = some K))) :=
  ⟨⟨by decide, by decide, by decide⟩,
    c1_generate_success_replay 3 demoGen demoRandStream (by decide) (by decide)
      (by decide)⟩

/-- C2 counterexample: the claim says the piece-location tracking is reset
to empty at the start of every attempt.  It is not: `generateLoop` starts
each attempt from `resetState` of the previous attempt's state, and after a
failed attempt that wrote a location entry, `resetState` still carries that
entry into the next attempt. -/
theorem c2_counterexample :
    (attempt 0 (resetState demoGen) [⟨1, 2⟩, ⟨1, 2⟩, ⟨1, 2⟩]).1 = false ∧
    (resetState
        (attempt 0 (resetState demoGen) [⟨1, 2⟩, ⟨1, 2⟩, ⟨1, 2⟩]).2.1).pieceLocations ≠
      [] := by
  constructor
  · decide
  · decide

/-- C2 (amended): at the start of every global attempt the board, solution
list, piece count, move-count ledger, identity counter, and last-used piece
are reset to their initial values, but the piece-location map survives from
the previous attempt (it is the one mutable field `resetState` leaves
untouched besides the configured final piece). -/
theorem c2_resetState_fields (s : GenState) :
    (resetState s).board = emptyBoard ∧
    (resetState s).solution = [] ∧
    (resetState s).pieceCount = 0 ∧
    (resetState s).moveCounts = [] ∧
    (resetState s).nextPieceId = 1 ∧
    (resetState s).lastUsedPiece = none ∧
    (resetState s).finalPiece = s.finalPiece ∧
    (resetState s).pieceLocations = s.pieceLocations :=
  ⟨rfl, rfl, rfl, rfl, rfl, rfl, rfl, rfl⟩

/-- C3 counterexample: the claim says requests below the minimum bound (3)
are rejected without a search attempt.  `generate` performs no bound check:
a request for 1 piece runs the normal search and can even succeed. -/
theorem c3_counterexample :
    ¬(∀ (numPieces : Nat) (s : GenState) (rand : RandStream),
        numPieces < 3 → (generate numPieces s rand).1 = false) := fun hall =>
  absurd (hall 1 demoGen [⟨1, 2⟩, ⟨1, 2⟩, ⟨1, 2⟩] (by omega)) (by decide)

/-- C3 (amended): every successful `generate numPieces` run returns a
solution list of length exactly `numPieces - 1` (so `generate 3`, which can
succeed, yields exactly 2 moves); no minimum-bound check exists, so
below-minimum requests run the same search. -/
theorem c3_solution_length (numPieces : Nat) (s : GenState) (rand : RandStream)
    (hv : ValidRand rand) (hsucc : (generate numPieces s rand).1 = true) :
    (generate numPieces s rand).2.1.solution.length + 1 = numPieces := by
  obtain ⟨hinv, hcert, -⟩ := generate_spec numPieces s rand hv
  obtain ⟨hcount, hval⟩ := hcert hsucc
  obtain ⟨c, hrep, hone, -⟩ := validateSolution_spec hval
  have h1 := replayMoves_count _ _ _ _ hrep
  have h2 := hinv.2.1
  omega

/-- Witness for C3 on a concrete run: `generate 3` on the demo stream
succeeds with a 2-move solution. -/
theorem c3_solution_length_witness :
    (ValidRand demoRandStream ∧ (generate 3 demoGen demoRandStream).1 = true) ∧
    (generate 3 demoGen demoRandStream).2.1.solution.length + 1 = 3 :=
  ⟨⟨by decide, by decide⟩,
    c3_solution_length 3 demoGen demoRandStream (by decide) (by decide)⟩

/-- On a board with at most one king, a successful validation contains no
king-capturing move: capturing the only king would leave a king-free final
board, contradicting the king-survivor check. -/
theorem validate_no_king_capture {b : Board} {sol : List Move}
    (hk : kingCount b ≤ 1) (hval : validateSolution b sol = true) :
    ∀ m ∈ sol, m.captured ≠ K := by
  intro m hm hcap
  obtain ⟨c, hrep, hone, hkg⟩ := validateSolution_spec hval
  obtain ⟨hz, hpos⟩ := replayMoves_king_captured _ _ _ _ hk hrep ⟨m, hm, hcap⟩
  have hh := hkg (hasKing_iff_kingCount.mpr hpos)
  have hmem : K ∈ c.flatten.filterMap id :=
    List.mem_of_mem_head? (Option.mem_def.mpr hh)
  have : 1 ≤ kingCount c := List.count_pos_iff.mpr hmem
  omega

/-- A board holding two kings, used to exhibit the validator's missing
king-capture check. -/
def twoKingBoard : Board :=
  boardSet (boardSet emptyBoard ⟨0, 0⟩ (some K)) ⟨1, 0⟩ (some K)

/-- A king stepping onto the square of a second king. -/
def kingCaptureMove : Move :=
  { fromSq := ⟨1, 0⟩, toSq := ⟨0, 0⟩, captured := K, piece := K
    pieceId := 1, wasPromotion := false }

/-- C4 counterexample: the claim says the forward validator rejects any
solution containing a king capture.  It has no such check: on a board with
two kings, a solution whose single move captures a king validates. -/
theorem c4_counterexample :
    validateSolution twoKingBoard [kingCaptureMove] = true ∧
    kingCaptureMove.captured = K := by
  constructor
  · decide
  · rfl

/-- C4 (amended): the reverse search never selects a destination square
hosting a king (it requires an empty destination); the forward validator
rejects king captures on boards with at most one king — though not on
boards with several — and every solution stored by `generate` (success or
not) contains no move whose captured piece is a king. -/
theorem c4_no_king_capture (numPieces : Nat) (s : GenState) (rand : RandStream)
    (hv : ValidRand rand) :
    (∀ (b : Board) (fromSq : Position) (piece : SimplePiece) (r : RandStream)
        (cr : CaptureResult), ValidRand r →
      (findValidCapturePosition b fromSq piece r).1 = some cr →
      boardGet b cr.position ≠ some K) ∧
    (∀ (b : Board) (sol : List Move), kingCount b ≤ 1 →
      validateSolution b sol = true → ∀ m ∈ sol, m.captured ≠ K) ∧
    (∀ m ∈ (generate numPieces s rand).2.1.solution, m.captured ≠ K) := by
  refine ⟨?_, ?_, ?_⟩
  · intro b fromSq piece r cr hvr hcr
    rw [(findValidCapturePosition_some hvr hcr).1]
    simp
  · intro b sol hk hval
    exact validate_no_king_capture hk hval
  · intro m hm
    exact ((generate_spec numPieces s rand hv).1.2.2.2 m hm).1

/-- Witness for C4 on a concrete run. -/
theorem c4_no_king_capture_witness :
    ValidRand demoRandStream ∧
    ((∀ (b : Board) (fromSq : Position) (piece : SimplePiece) (r : RandStream)
        (cr : CaptureResult), ValidRand r →
      (findValidCapturePosition b fromSq piece r).1 = some cr →
      boardGet b cr.position ≠ some K) ∧
    (∀ (b : Board) (sol : List Move), kingCount b ≤ 1 →
      validateSolution b sol = true → ∀ m ∈ sol, m.captured ≠ K) ∧
    (∀ m ∈ (generate 3 demoGen demoRandStream).2.1.solution, m.captured ≠ K)) :=
  ⟨by decide, c4_no_king_capture 3 demoGen demoRandStream (by decide)⟩

/-- C8: the move-limit gate accepts a mover exactly when its ledger count is
below 2, a relocation increments that count by exactly 1, the final
generator ledger maps every identity to a value ≤ 2, any validated
solution uses each identity at most twice, and so does every successful
`generate` solution. -/
theorem c8_move_limit (numPieces : Nat) (s : GenState) (rand : RandStream)
    (hv : ValidRand rand) :
    (∀ (s' : GenState) (pieceId : Nat),
      hasExceededMoveLimit s' pieceId = false ↔
        (mapGet s'.moveCounts pieceId).getD 0 < 2) ∧
    (∀ (s' : GenState) (pieceId : Nat),
      (mapGet (incrementMoveCount s' pieceId).moveCounts pieceId).getD 0 =
        (mapGet s'.moveCounts pieceId).getD 0 + 1) ∧
    (∀ e ∈ (generate numPieces s rand).2.1.moveCounts, e.2 ≤ 2) ∧
    (∀ (b : Board) (sol : List Move), validateSolution b sol = true →
      ∀ pieceId : Nat,
        (sol.filter (fun m => m.pieceId = pieceId)).length ≤ 2) ∧
    ((generate numPieces s rand).1 = true → ∀ pieceId : Nat,
      ((generate numPieces s rand).2.1.solution.filter
        (fun m => m.pieceId = pieceId)).length ≤ 2) := by
  have hvalbound : ∀ (b : Board) (sol : List Move),
      validateSolution b sol = true → ∀ pieceId : Nat,
        (sol.filter (fun m => m.pieceId = pieceId)).length ≤ 2 := by
    intro b sol hval pieceId
    obtain ⟨c, hrep, -, -⟩ := validateSolution_spec hval
    have := replayMoves_id_bound _ _ _ _ hrep pieceId
    simpa [mapGet] using this
  refine ⟨?_, ?_, ?_, hvalbound, ?_⟩
  · intro s' pieceId
    simp [hasExceededMoveLimit]
  · intro s' pieceId
    simp only [incrementMoveCount]
    rw [mapGet_set_self]
    rfl
  · exact (generate_spec numPieces s rand hv).1.2.2.1
  · intro hsucc pieceId
    obtain ⟨-, hcert, -⟩ := generate_spec numPieces s rand hv
    exact hvalbound _ _ (hcert hsucc).2 pieceId

/-- Witness for C8 on a concrete run. -/
theorem c8_move_limit_witness :
    ValidRand demoRandStream ∧
    ((∀ (s' : GenState) (pieceId : Nat),
      hasExceededMoveLimit s' pieceId = false ↔
        (mapGet s'.moveCounts pieceId).getD 0 < 2) ∧
    (∀ (s' : GenState) (pieceId : Nat),
      (mapGet (incrementMoveCount s' pieceId).moveCounts pieceId).getD 0 =
        (mapGet s'.moveCounts pieceId).getD 0 + 1) ∧
    (∀ e ∈ (generate 3 demoGen demoRandStream).2.1.moveCounts, e.2 ≤ 2) ∧
    (∀ (b : Board) (sol : List Move), validateSolution b sol = true →
      ∀ pieceId : Nat,
        (sol.filter (fun m => m.pieceId = pieceId)).length ≤ 2) ∧
    ((generate 3 demoGen demoRandStream).1 = true → ∀ pieceId : Nat,
      ((generate 3 demoGen demoRandStream).2.1.solution.filter
        (fun m => m.pieceId = pieceId)).length ≤ 2)) :=
  ⟨by decide, c8_move_limit 3 demoGen demoRandStream (by decide)⟩

/-- One iteration of `generate`'s retry loop as a state transformer: reset
the per-attempt fields, run one attempt, keep its output state and stream. -/
def attemptStep (numPieces : Nat) (p : GenState × RandStream) :
    GenState × RandStream :=
  (attempt numPieces (resetState p.1) p.2).2

/-- The success flag of the attempt run from iterate state `p`. -/
def attemptFlag (numPieces : Nat) (p : GenState × RandStream) : Bool :=
  (attempt numPieces (resetState p.1) p.2).1

/-- The retry loop fails exactly when every one of its `fuel` attempts
fails. -/
theorem generateLoop_false_iff (numPieces : Nat) :
    ∀ (fuel : Nat) (s : GenState) (rand : RandStream),
      (generateLoop numPieces fuel s rand).1 = false ↔
        ∀ k < fuel, attemptFlag numPieces ((attemptStep numPieces)^[k] (s, rand)) = false := by
  intro fuel
  induction fuel with
  | zero =>
    intro s rand
    constructor
    · intro _ k hk
      omega
    · intro _
      rfl
  | succ fuel ih =>
    intro s rand
    rw [generateLoop]
    by_cases hflag : (attempt numPieces (resetState s) rand).1 = true
    · rw [if_pos hflag]
      constructor
      · intro hfalse
        rw [hflag] at hfalse
        cases hfalse
      · intro hall
        have := hall 0 (by omega)
        rw [Function.iterate_zero_apply] at this
        rw [attemptFlag] at this
        rw [hflag] at this
        cases this
    · rw [Bool.not_eq_true] at hflag
      rw [if_neg (by rw [hflag]; exact Bool.false_ne_true)]
      rw [ih]
      constructor
      · intro hall k hk
        cases k with
        | zero =>
          rw [Function.iterate_zero_apply, attemptFlag]
          exact hflag
        | succ j =>
          rw [Function.iterate_succ_apply]
          exact hall j (by omega)
      · intro hall k hk
        have := hall (k + 1) (by omega)
        rw [Function.iterate_succ_apply] at this
        exact this

/-- C9: `generate` surfaces its terminal error exactly when all 10000
attempts fail; a placement error is thrown precisely for a pawn on the
illegal rank and is caught locally — a failed attempt simply starts the
next one; a successful attempt certifies a counted, validated puzzle; and
a failed `generate` retains no state satisfying that certificate. -/
theorem c9_error_surface (numPieces : Nat) (s : GenState) (rand : RandStream)
    (hv : ValidRand rand) :
    ((generate numPieces s rand).1 = false ↔
      ∀ k < 10000,
        attemptFlag numPieces ((attemptStep numPieces)^[k] (s, rand)) = false) ∧
    (∀ (st : GenState) (piece : SimplePiece) (pos : Position),
      placePiece st piece pos = Except.error () ↔ (piece = P ∧ pos.y = 0)) ∧
    (∀ (fuel : Nat) (s' : GenState) (r : RandStream),
      attemptFlag numPieces (s', r) = false →
      generateLoop numPieces (fuel + 1) s' r =
        generateLoop numPieces fuel (attemptStep numPieces (s', r)).1
          (attemptStep numPieces (s', r)).2) ∧
    (∀ (s' : GenState) (r : RandStream), ValidRand r →
      attemptFlag numPieces (s', r) = true →
      (attempt numPieces (resetState s') r).2.1.pieceCount = numPieces ∧
      validateSolution (attempt numPieces (resetState s') r).2.1.board
        (attempt numPieces (resetState s') r).2.1.solution = true) ∧
    ((generate numPieces s rand).1 = false →
      ¬((generate numPieces s rand).2.1.pieceCount = numPieces ∧
        validateSolution (generate numPieces s rand).2.1.board
          (generate numPieces s rand).2.1.solution = true)) := by
  refine ⟨generateLoop_false_iff numPieces 10000 s rand, ?_, ?_, ?_, ?_⟩
  · intro st piece pos
    rw [placePiece]
    constructor
    · intro h
      split_ifs at h with hc
      · constructor
        · exact of_decide_eq_true ((Bool.and_eq_true _ _).mp hc).1
        · exact of_decide_eq_true ((Bool.and_eq_true _ _).mp hc).2
    · rintro ⟨hp, hy⟩
      rw [if_pos (by rw [hp, hy]; rfl)]
  · intro fuel s' r hflag
    rw [generateLoop]
    rw [if_neg (by rw [attemptFlag] at hflag; rw [hflag]; exact Bool.false_ne_true)]
    rfl
  · intro s' r hvr hflag
    exact (attempt_spec numPieces s' r hvr).2.2.1 hflag
  · exact (generate_spec numPieces s rand hv).2.2

/-- Witness for C9 on a concrete run. -/
theorem c9_error_surface_witness :
    ValidRand demoRandStream ∧
    (((generate 3 demoGen demoRandStream).1 = false ↔
      ∀ k < 10000,
        attemptFlag 3 ((attemptStep 3)^[k] (demoGen, demoRandStream)) = false) ∧
    (∀ (st : GenState) (piece : SimplePiece) (pos : Position),
      placePiece st piece pos = Except.error () ↔ (piece = P ∧ pos.y = 0)) ∧
    (∀ (fuel : Nat) (s' : GenState) (r : RandStream),
      attemptFlag 3 (s', r) = false →
      generateLoop 3 (fuel + 1) s' r =
        generateLoop 3 fuel (attemptStep 3 (s', r)).1
          (attemptStep 3 (s', r)).2) ∧
    (∀ (s' : GenState) (r : RandStream), ValidRand r →
      attemptFlag 3 (s', r) = true →
      (attempt 3 (resetState s') r).2.1.pieceCount = 3 ∧
      validateSolution (attempt 3 (resetState s') r).2.1.board
        (attempt 3 (resetState s') r).2.1.solution = true) ∧
    ((generate 3 demoGen demoRandStream).1 = false →
      ¬((generate 3 demoGen demoRandStream).2.1.pieceCount = 3 ∧
        validateSolution (generate 3 demoGen demoRandStream).2.1.board
          (generate 3 demoGen demoRandStream).2.1.solution = true))) :=
  ⟨by decide, c9_error_surface 3 demoGen demoRandStream (by decide)⟩

/-- C6 counterexample: the claim says a pawn move with the promotion flag
set renders with a suffix naming the kind the pawn promoted to.  The code
appends `=` followed by the move's own `piece` letter — `P` itself in the
pawn branch — which names no promotion kind. -/
theorem c6_counterexample :
    ¬(∀ m : Move, m.piece = P → m.wasPromotion = true →
      ∃ k ∈ promotionPieces,
        getSolution [m] =
          [String.mk [Char.ofNat (97 + m.fromSq.x)] ++ "x" ++
            positionToAlgebraic m.toSq ++ "=" ++ String.mk [pieceChar k]]) := by
  intro hall
  have h := hall
    { fromSq := ⟨1, 1⟩, toSq := ⟨0, 0⟩, captured := Q, piece := P
      pieceId := 1, wasPromotion := true } rfl rfl
  revert h
  decide

/-- Modelled on the amended wording: the promotion suffix repeats the
move's own `piece` letter, which in the pawn branch is always `=P`; all
non-pawn movers (including generator-produced promotion moves, whose
`piece` is already the promoted kind) render without any suffix. -/
def renderMoveAmended (m : Move) : String :=
  if m.piece = P then
    if m.wasPromotion then
      String.mk [Char.ofNat (97 + m.fromSq.x)] ++ "x" ++
        positionToAlgebraic m.toSq ++ "=P"
    else
      String.mk [Char.ofNat (97 + m.fromSq.x)] ++ "x" ++ positionToAlgebraic m.toSq
  else
    String.mk [pieceChar m.piece] ++ positionToAlgebraic m.fromSq ++ "x" ++
      positionToAlgebraic m.toSq

/-- Each rendered move agrees with the amended per-move description. -/
theorem moveNotation_eq (m : Move) : moveNotationStr m = renderMoveAmended m := by
  simp only [moveNotationStr, renderMoveAmended]
  split_ifs with hp hw
  · rw [hp]
    rw [String.append_assoc]
    rfl
  · rfl
  · rfl

/-- C6 (amended): `getSolution` renders pawn moves as
`<file>x<dest>`, with the literal suffix `=P` (the mover's own letter, not
the promoted kind) exactly when the promotion flag is set, and every
non-pawn move as `<kind><from>x<dest>` with no suffix. -/
theorem c6_notation (sol : List Move) :
    getSolution sol = sol.map renderMoveAmended := by
  rw [getSolution]
  exact List.map_congr_left (fun m _ => moveNotation_eq m)

def finalPieceOfRand (r : Frac) : SimplePiece :=
  (mkGenerator none [r]).1.finalPiece

theorem frac_num_sub (a b : Frac) : (a - b).num = a.num * b.den - b.num * a.den :=
  rfl

theorem frac_den_sub (a b : Frac) : (a - b).den = a.den * b.den := rfl

theorem frac_num_mul (a b : Frac) : (a * b).num = a.num * b.num := rfl

theorem frac_den_mul (a b : Frac) : (a * b).den = a.den * b.den := rfl

theorem frac_num_ofNat (n : Nat) :
    (no_index (OfNat.ofNat n) : Frac).num = OfNat.ofNat n := rfl

theorem frac_den_ofNat (n : Nat) :
    (no_index (OfNat.ofNat n) : Frac).den = 1 := rfl

theorem frac_num_mk (a b : Int) : (Frac.mk a b).num = a := rfl

theorem frac_den_mk (a b : Int) : (Frac.mk a b).den = b := rfl

theorem frac_le_frac_iff (a b : Frac) : a ≤ b ↔ a.num * b.den ≤ b.num * a.den :=
  Iff.rfl

theorem getRandomPiece_fst (s : GenState) (ek : Bool) (rand : RandStream) :
    (getRandomPiece s ek rand).1 =
      (pickWeighted (weightEntries ek s.lastUsedPiece)
        ((randNext rand).1 *
          ((weightEntries ek s.lastUsedPiece).map (fun x => x.2)).foldl
            (fun sum weight => sum + weight) 0)).getD P := by
  simp only [getRandomPiece]
  cases hpick : pickWeighted (weightEntries ek s.lastUsedPiece)
      ((randNext rand).1 *
        ((weightEntries ek s.lastUsedPiece).map (fun x => x.2)).foldl
          (fun sum weight => sum + weight) 0) with
  | none => rfl
  | some piece => rfl

theorem pickW_cases (r : Frac) :
    (pickWeighted [(K, (100 : Frac)), (P, 3), (N, 4), (B, 4), (R, 2), (Q, 1)]
        (r * ⟨114, 1⟩)).getD P =
      if 114 * r.num ≤ 100 * r.den then K
      else if 114 * r.num ≤ 103 * r.den then P
      else if 114 * r.num ≤ 107 * r.den then N
      else if 114 * r.num ≤ 111 * r.den then B
      else if 114 * r.num ≤ 113 * r.den then R
      else if 114 * r.num ≤ 114 * r.den then Q
      else P := by
  have hc1 : (r * (⟨114, 1⟩ : Frac) - 100 ≤ 0) ↔ 114 * r.num ≤ 100 * r.den := by
    simp only [frac_le_frac_iff, frac_num_sub, frac_den_sub, frac_num_mul,
      frac_den_mul, frac_num_ofNat, frac_den_ofNat, frac_num_mk, frac_den_mk]
    omega
  have hc2 : (r * (⟨114, 1⟩ : Frac) - 100 - 3 ≤ 0) ↔ 114 * r.num ≤ 103 * r.den := by
    simp only [frac_le_frac_iff, frac_num_sub, frac_den_sub, frac_num_mul,
      frac_den_mul, frac_num_ofNat, frac_den_ofNat, frac_num_mk, frac_den_mk]
    omega
  have hc3 : (r * (⟨114, 1⟩ : Frac) - 100 - 3 - 4 ≤ 0) ↔
      114 * r.num ≤ 107 * r.den := by
    simp only [frac_le_frac_iff, frac_num_sub, frac_den_sub, frac_num_mul,
      frac_den_mul, frac_num_ofNat, frac_den_ofNat, frac_num_mk, frac_den_mk]
    omega
  have hc4 : (r * (⟨114, 1⟩ : Frac) - 100 - 3 - 4 - 4 ≤ 0) ↔
      114 * r.num ≤ 111 * r.den := by
    simp only [frac_le_frac_iff, frac_num_sub, frac_den_sub, frac_num_mul,
      frac_den_mul, frac_num_ofNat, frac_den_ofNat, frac_num_mk, frac_den_mk]
    omega
  have hc5 : (r * (⟨114, 1⟩ : Frac) - 100 - 3 - 4 - 4 - 2 ≤ 0) ↔
      114 * r.num ≤ 113 * r.den := by
    simp only [frac_le_frac_iff, frac_num_sub, frac_den_sub, frac_num_mul,
      frac_den_mul, frac_num_ofNat, frac_den_ofNat, frac_num_mk, frac_den_mk]
    omega
  have hc6 : (r * (⟨114, 1⟩ : Frac) - 100 - 3 - 4 - 4 - 2 - 1 ≤ 0) ↔
      114 * r.num ≤ 114 * r.den := by
    simp only [frac_le_frac_iff, frac_num_sub, frac_den_sub, frac_num_mul,
      frac_den_mul, frac_num_ofNat, frac_den_ofNat, frac_num_mk, frac_den_mk]
    omega
  simp only [pickWeighted, hc1, hc2, hc3, hc4, hc5, hc6]
  split_ifs <;> rfl

/-- C5 (amended): a caller-supplied final piece kind is stored as-is; when
none is supplied the constructor draws the final kind from the
`PIECE_WEIGHTS` distribution (total weight 114), which is weighted, not
uniform: as a function `r` of the single `Math.random()` value consumed,
the draw is King on the fraction `[0, 100/114]` of the input space, Pawn on
`(100/114, 103/114]`, Knight on `(103/114, 107/114]`, Bishop on
`(107/114, 111/114]`, Rook on `(111/114, 113/114]`, and Queen on
`(113/114, 1)`. -/
theorem c5_final_piece_thresholds (r : Frac) (hr : ValidFrac r) :
    (∀ (k : SimplePiece) (rs : RandStream),
      (mkGenerator (some k) rs).1.finalPiece = k) ∧
    (finalPieceOfRand r = K ↔ 114 * r.num ≤ 100 * r.den) ∧
    (finalPieceOfRand r = P ↔
      100 * r.den < 114 * r.num ∧ 114 * r.num ≤ 103 * r.den) ∧
    (finalPieceOfRand r = N ↔
      103 * r.den < 114 * r.num ∧ 114 * r.num ≤ 107 * r.den) ∧
    (finalPieceOfRand r = B ↔
      107 * r.den < 114 * r.num ∧ 114 * r.num ≤ 111 * r.den) ∧
    (finalPieceOfRand r = R ↔
      111 * r.den < 114 * r.num ∧ 114 * r.num ≤ 113 * r.den) ∧
    (finalPieceOfRand r = Q ↔ 113 * r.den < 114 * r.num) := by
  refine ⟨fun k rs => rfl, ?_⟩
  obtain ⟨hden, hnum0, hnum⟩ := hr
  have hw : weightEntries false none =
      [(K, (100 : Frac)), (P, 3), (N, 4), (B, 4), (R, 2), (Q, 1)] := by decide
  have htot : (([(K, (100 : Frac)), (P, 3), (N, 4), (B, 4), (R, 2), (Q, 1)].map
      (fun x => x.2)).foldl (fun sum weight => sum + weight) 0) = ⟨114, 1⟩ := by
    decide
  have hre : finalPieceOfRand r =
      if 114 * r.num ≤ 100 * r.den then K
      else if 114 * r.num ≤ 103 * r.den then P
      else if 114 * r.num ≤ 107 * r.den then N
      else if 114 * r.num ≤ 111 * r.den then B
      else if 114 * r.num ≤ 113 * r.den then R
      else if 114 * r.num ≤ 114 * r.den then Q
      else P := by
    simp only [finalPieceOfRand, mkGenerator, getRandomPiece_fst, randNext, hw,
      htot]
    exact pickW_cases r
  simp only [hre]
  split_ifs with h1 h2 h3 h4 h5 h6 <;>
    refine ⟨?_, ?_, ?_, ?_, ?_, ?_⟩ <;>
    constructor <;> intro hx <;>
    first
      | exact absurd hx (by decide)
      | rfl
      | omega
      | (exfalso; omega)

instance (f : Frac) : Decidable (ValidFrac f) :=
  inferInstanceAs (Decidable (0 < f.den ∧ 0 ≤ f.num ∧ f.num < f.den))

/-- Witness for C5 (amended) at `r = 1/2`: the draw lands on King. -/
theorem c5_final_piece_thresholds_witness :
    ValidFrac ⟨1, 2⟩ ∧
    ((∀ (k : SimplePiece) (rs : RandStream),
      (mkGenerator (some k) rs).1.finalPiece = k) ∧
    (finalPieceOfRand ⟨1, 2⟩ = K ↔ 114 * (1 : Int) ≤ 100 * 2) ∧
    (finalPieceOfRand ⟨1, 2⟩ = P ↔
      100 * 2 < 114 * (1 : Int) ∧ 114 * (1 : Int) ≤ 103 * 2) ∧
    (finalPieceOfRand ⟨1, 2⟩ = N ↔
      103 * 2 < 114 * (1 : Int) ∧ 114 * (1 : Int) ≤ 107 * 2) ∧
    (finalPieceOfRand ⟨1, 2⟩ = B ↔
      107 * 2 < 114 * (1 : Int) ∧ 114 * (1 : Int) ≤ 111 * 2) ∧
    (finalPieceOfRand ⟨1, 2⟩ = R ↔
      111 * 2 < 114 * (1 : Int) ∧ 114 * (1 : Int) ≤ 113 * 2) ∧
    (finalPieceOfRand ⟨1, 2⟩ = Q ↔ 113 * 2 < 114 * (1 : Int))) :=
  ⟨by decide, c5_final_piece_thresholds ⟨1, 2⟩ (by decide)⟩

/-- The uniformity property the claim asserts, phrased over the threshold
scan the constructor actually performs: a uniform choice over six kinds
means each kind is taken on an interval of the unit input space of measure
exactly `1/6`. -/
def uniformFinalChoice : Prop :=
  ∀ k : SimplePiece, ∃ l u : ℚ, 0 ≤ l ∧ u ≤ 1 ∧ u - l = 1 / 6 ∧
    ∀ r : Frac, ValidFrac r → (finalPieceOfRand r = k ↔ l ≤ r.val ∧ r.val < u)

/-- C5 counterexample: the final-piece draw is not uniform — the King is
chosen both at `r = 0` and at `r = 5/6`, so its selection region cannot
have measure `1/6`. -/
theorem c5_counterexample : ¬uniformFinalChoice := by
  intro h
  obtain ⟨l, u, hl0, hu1, hlen, hiff⟩ := h K
  have h0 := (hiff ⟨0, 1⟩ (by decide)).mp (by decide)
  have h5 := (hiff ⟨5, 6⟩ (by decide)).mp (by decide)
  have hv0 : (Frac.mk 0 1).val = 0 := by norm_num [Frac.val]
  have hv5 : (Frac.mk 5 6).val = 5 / 6 := by norm_num [Frac.val]
  rw [hv0] at h0
  rw [hv5] at h5
  linarith [h0.1, h5.2, hlen]

/-- The cells the `hasLineOfSight` loop would visit: `k` unit steps of
`(sx, sy)` starting at `(x, y)`. -/
def lineWalk (sx sy : Int) : Int → Int → Nat → List (Int × Int)
  | _, _, 0 => []
  | x, y, k + 1 => (x, y) :: lineWalk sx sy (x + sx) (y + sy) k

theorem lineWalk_mem {sx sy : Int} :
    ∀ (k : Nat) (x y : Int) (p : Int × Int),
      p ∈ lineWalk sx sy x y k ↔
        ∃ i : Nat, i < k ∧ p = (x + i * sx, y + i * sy) := by
  intro k
  induction k with
  | zero =>
    intro x y p
    rw [lineWalk]
    simp
  | succ k ih =>
    intro x y p
    rw [lineWalk]
    constructor
    · intro hp
      rcases List.mem_cons.mp hp with rfl | hp
      · exact ⟨0, by omega, by simp⟩
      · obtain ⟨i, hi, hpe⟩ := (ih _ _ _).mp hp
        refine ⟨i + 1, by omega, ?_⟩
        rw [hpe]
        simp only [Prod.mk.injEq]
        constructor <;> (push_cast; ring)
    · rintro ⟨i, hi, rfl⟩
      cases i with
      | zero => simp [List.mem_cons]
      | succ j =>
        refine List.mem_cons_of_mem _ ((ih _ _ _).mpr ⟨j, by omega, ?_⟩)
        simp only [Prod.mk.injEq]
        constructor <;> (push_cast; ring)

theorem hasLineOfSightAux_spec (b : Board) (sx sy : Int) :
    ∀ (d : Nat) (fuel : Nat) (x y : Int), d < fuel →
      (d = 0 ∨ sx ≠ 0 ∨ sy ≠ 0) →
      hasLineOfSightAux b sx sy (x + d * sx) (y + d * sy) fuel x y =
        some (decide (∀ p ∈ lineWalk sx sy x y d,
          (b.getD p.2.toNat []).getD p.1.toNat none = none)) := by
  intro d
  induction d with
  | zero =>
    intro fuel x y hfuel hsign
    cases fuel with
    | zero => omega
    | succ fuel =>
      rw [hasLineOfSightAux]
      rw [if_pos (by simp)]
      rw [lineWalk]
      simp
  | succ d ih =>
    intro fuel x y hfuel hsign
    have hsigns : sx ≠ 0 ∨ sy ≠ 0 := by
      rcases hsign with h | h
      · exact absurd h (by omega)
      · exact h
    cases fuel with
    | zero => omega
    | succ fuel =>
      rw [hasLineOfSightAux]
      have hne : (decide (x = x + (d + 1 : Nat) * sx) &&
          decide (y = y + (d + 1 : Nat) * sy)) = false := by
        rcases hsigns with h | h
        · have hx0 : x ≠ x + (d + 1 : Nat) * sx := by
            intro he
            have : ((d : Int) + 1) * sx = 0 := by push_cast at he ⊢; omega
            rcases mul_eq_zero.mp this with h' | h'
            · omega
            · exact h h'
          rw [decide_eq_false hx0, Bool.false_and]
        · have hy0 : y ≠ y + (d + 1 : Nat) * sy := by
            intro he
            have : ((d : Int) + 1) * sy = 0 := by push_cast at he ⊢; omega
            rcases mul_eq_zero.mp this with h' | h'
            · omega
            · exact h h'
          rw [decide_eq_false hy0, Bool.and_false]
      rw [if_neg (by rw [hne]; exact Bool.false_ne_true)]
      by_cases hocc : (b.getD y.toNat []).getD x.toNat none ≠ none
      · rw [if_pos hocc]
        have hnall : ¬(∀ p ∈ lineWalk sx sy x y (d + 1),
            (b.getD p.2.toNat []).getD p.1.toNat none = none) := by
          intro hall
          exact hocc (hall (x, y) (by rw [lineWalk]; exact List.mem_cons_self _ _))
        rw [decide_eq_false hnall]
      · rw [if_neg hocc]
        rw [not_not] at hocc
        have harg1 : x + (d + 1 : Nat) * sx = (x + sx) + (d : Nat) * sx := by
          push_cast; ring
        have harg2 : y + (d + 1 : Nat) * sy = (y + sy) + (d : Nat) * sy := by
          push_cast; ring
        rw [harg1, harg2, ih fuel (x + sx) (y + sy) (by omega) (Or.inr hsigns)]
        congr 1
        rw [decide_eq_decide]
        rw [lineWalk]
        constructor
        · intro hall p hp
          rcases List.mem_cons.mp hp with rfl | hp
          · exact hocc
          · exact hall p hp
        · intro hall p hp
          exact hall p (List.mem_cons_of_mem (x, y) hp)

/-- The `dx` offset `hasLineOfSight` computes. -/
def losDx (fromSq toSq : Position) : Int := (toSq.x : Int) - (fromSq.x : Int)

/-- The `dy` offset `hasLineOfSight` computes. -/
def losDy (fromSq toSq : Position) : Int := (toSq.y : Int) - (fromSq.y : Int)

/-- The unit step `hasLineOfSight` derives from an offset. -/
def losStep (d : Int) : Int := if d = 0 then 0 else d / |d|

/-- The Chebyshev distance between the squares: the number of unit steps the
line-of-sight walk needs to reach the target. -/
def losDist (fromSq toSq : Position) : Nat :=
  max (losDx fromSq toSq).natAbs (losDy fromSq toSq).natAbs

/-- The squares share a row, a column, or a diagonal. -/
def Aligned (fromSq toSq : Position) : Prop :=
  losDx fromSq toSq = 0 ∨ losDy fromSq toSq = 0 ∨
    (losDx fromSq toSq).natAbs = (losDy fromSq toSq).natAbs

/-- The strictly-intermediate squares of the line from `fromSq` to `toSq`. -/
def betweenSquares (fromSq toSq : Position) : List Position :=
  (lineWalk (losStep (losDx fromSq toSq)) (losStep (losDy fromSq toSq))
      ((fromSq.x : Int) + losStep (losDx fromSq toSq))
      ((fromSq.y : Int) + losStep (losDy fromSq toSq))
      (losDist fromSq toSq - 1)).map
    (fun p => ⟨p.1.toNat, p.2.toNat⟩)

theorem losStep_eq_sign (z : Int) : losStep z = Int.sign z := by
  rw [losStep]
  split_ifs with h
  · rw [h]
    rfl
  · rcases lt_trichotomy z 0 with hz | hz | hz
    · rw [abs_of_neg hz, Int.ediv_neg, Int.ediv_self h,
        Int.sign_eq_neg_one_of_neg hz]
    · exact absurd hz h
    · rw [abs_of_pos hz, Int.ediv_self h, Int.sign_eq_one_of_pos hz]

theorem losStep_cases (z : Int) :
    losStep z = 0 ∨ losStep z = 1 ∨ losStep z = -1 := by
  rw [losStep_eq_sign]
  rcases lt_trichotomy z 0 with hz | hz | hz
  · exact Or.inr (Or.inr (Int.sign_eq_neg_one_of_neg hz))
  · exact Or.inl (by rw [hz]; rfl)
  · exact Or.inr (Or.inl (Int.sign_eq_one_of_pos hz))

theorem natAbs_mul_losStep (z : Int) : (z.natAbs : Int) * losStep z = z := by
  rw [losStep_eq_sign, mul_comm]
  exact Int.sign_mul_natAbs z

theorem losStep_ne_zero {z : Int} (h : z ≠ 0) : losStep z ≠ 0 := by
  rw [losStep_eq_sign]
  rcases lt_trichotomy z 0 with hz | hz | hz
  · rw [Int.sign_eq_neg_one_of_neg hz]
    decide
  · exact absurd hz h
  · rw [Int.sign_eq_one_of_pos hz]
    decide

theorem losDist_mul_step_x {fromSq toSq : Position} (hal : Aligned fromSq toSq) :
    (losDist fromSq toSq : Int) * losStep (losDx fromSq toSq) =
      losDx fromSq toSq := by
  by_cases hx : losDx fromSq toSq = 0
  · rw [hx]
    rw [losStep]
    rw [if_pos rfl]
    ring
  · have hd : losDist fromSq toSq = (losDx fromSq toSq).natAbs := by
      rcases hal with h | h | h
      · exact absurd h hx
      · rw [losDist, h]
        simp
      · rw [losDist, h]
        simp
    rw [hd]
    exact natAbs_mul_losStep _

theorem losDist_mul_step_y {fromSq toSq : Position} (hal : Aligned fromSq toSq) :
    (losDist fromSq toSq : Int) * losStep (losDy fromSq toSq) =
      losDy fromSq toSq := by
  by_cases hy : losDy fromSq toSq = 0
  · rw [hy]
    rw [losStep]
    rw [if_pos rfl]
    ring
  · have hd : losDist fromSq toSq = (losDy fromSq toSq).natAbs := by
      rcases hal with h | h | h
      · rw [losDist, h]
        simp
      · exact absurd h hy
      · rw [losDist, h]
        simp
    rw [hd]
    exact natAbs_mul_losStep _

instance (b : Board) (sx sy x y : Int) (k : Nat) :
    Decidable (∀ p ∈ lineWalk sx sy x y k,
      (b.getD p.2.toNat []).getD p.1.toNat none = none) :=
  List.decidableBAll _ _

theorem losDist_le_7 {fromSq toSq : Position} (hf : PosIn fromSq)
    (ht : PosIn toSq) : losDist fromSq toSq ≤ 7 := by
  obtain ⟨hfx, hfy⟩ := hf
  obtain ⟨htx, hty⟩ := ht
  rw [losDist, losDx, losDy]
  omega

theorem losDist_pos {fromSq toSq : Position} (hne : fromSq ≠ toSq) :
    1 ≤ losDist fromSq toSq := by
  rw [losDist, losDx, losDy]
  by_contra h
  apply hne
  have hx : fromSq.x = toSq.x := by omega
  have hy : fromSq.y = toSq.y := by omega
  cases fromSq
  cases toSq
  simp_all

/-- Under the alignment precondition the `hasLineOfSight` walk reaches the
target: the result is the emptiness check of the strictly-intermediate
cells, and the distance-sized fuel already suffices. -/
theorem hasLineOfSight_spec (b : Board) (fromSq toSq : Position)
    (hal : Aligned fromSq toSq) (hne : fromSq ≠ toSq)
    (hdist : losDist fromSq toSq ≤ 8) :
    ∀ fuel : Nat, losDist fromSq toSq ≤ fuel →
    hasLineOfSightAux b (losStep (losDx fromSq toSq)) (losStep (losDy fromSq toSq))
        (toSq.x : Int) (toSq.y : Int) fuel
        ((fromSq.x : Int) + losStep (losDx fromSq toSq))
        ((fromSq.y : Int) + losStep (losDy fromSq toSq)) =
      some (@decide (∀ p ∈ lineWalk (losStep (losDx fromSq toSq))
          (losStep (losDy fromSq toSq))
          ((fromSq.x : Int) + losStep (losDx fromSq toSq))
          ((fromSq.y : Int) + losStep (losDy fromSq toSq))
          (losDist fromSq toSq - 1),
        (b.getD p.2.toNat []).getD p.1.toNat none = none)
        (List.decidableBAll _ _)) := by
  intro fuel hfuel
  have h1 : 1 ≤ losDist fromSq toSq := losDist_pos hne
  have hx : (toSq.x : Int) =
      ((fromSq.x : Int) + losStep (losDx fromSq toSq)) +
        ((losDist fromSq toSq - 1 : Nat) : Int) * losStep (losDx fromSq toSq) := by
    rw [Nat.cast_sub h1, Nat.cast_one]
    rw [sub_one_mul]
    rw [losDist_mul_step_x hal]
    rw [losDx]
    push_cast
    ring
  have hy : (toSq.y : Int) =
      ((fromSq.y : Int) + losStep (losDy fromSq toSq)) +
        ((losDist fromSq toSq - 1 : Nat) : Int) * losStep (losDy fromSq toSq) := by
    rw [Nat.cast_sub h1, Nat.cast_one]
    rw [sub_one_mul]
    rw [losDist_mul_step_y hal]
    rw [losDy]
    push_cast
    ring
  have hsign : losDist fromSq toSq - 1 = 0 ∨
      losStep (losDx fromSq toSq) ≠ 0 ∨ losStep (losDy fromSq toSq) ≠ 0 := by
    by_cases hd : losDist fromSq toSq - 1 = 0
    · exact Or.inl hd
    · have : (losDx fromSq toSq).natAbs ≠ 0 ∨ (losDy fromSq toSq).natAbs ≠ 0 := by
        rw [losDist] at hd
        omega
      rcases this with h | h
      · exact Or.inr (Or.inl (losStep_ne_zero (by omega)))
      · exact Or.inr (Or.inr (losStep_ne_zero (by omega)))
  rw [hx, hy]
  exact hasLineOfSightAux_spec b _ _ (losDist fromSq toSq - 1) fuel _ _
    (by omega) hsign

/-- `hasLineOfSight` unfolded to its fuel-8 walk. -/
theorem hasLineOfSight_eq_aux (b : Board) (fromSq toSq : Position) :
    hasLineOfSight b fromSq toSq =
      hasLineOfSightAux b (losStep (losDx fromSq toSq))
        (losStep (losDy fromSq toSq)) (toSq.x : Int) (toSq.y : Int) 8
        ((fromSq.x : Int) + losStep (losDx fromSq toSq))
        ((fromSq.y : Int) + losStep (losDy fromSq toSq)) := rfl

theorem betweenSquares_posIn {fromSq toSq : Position} (hf : PosIn fromSq)
    (ht : PosIn toSq) (hal : Aligned fromSq toSq) :
    ∀ p ∈ betweenSquares fromSq toSq, PosIn p := by
  intro p hp
  rw [betweenSquares] at hp
  obtain ⟨q, hq, rfl⟩ := List.mem_map.mp hp
  obtain ⟨i, hi, rfl⟩ := (lineWalk_mem _ _ _ _).mp hq
  obtain ⟨hfx, hfy⟩ := hf
  obtain ⟨htx, hty⟩ := ht
  have hdx := losDist_mul_step_x hal
  have hdy := losDist_mul_step_y hal
  constructor
  · show ((fromSq.x : Int) + losStep (losDx fromSq toSq) +
      i * losStep (losDx fromSq toSq)).toNat < 8
    rcases losStep_cases (losDx fromSq toSq) with hs | hs | hs <;>
      (rw [hs] at hdx ⊢; rw [losDx] at hdx; omega)
  · show ((fromSq.y : Int) + losStep (losDy fromSq toSq) +
      i * losStep (losDy fromSq toSq)).toNat < 8
    rcases losStep_cases (losDy fromSq toSq) with hs | hs | hs <;>
      (rw [hs] at hdy ⊢; rw [losDy] at hdy; omega)

theorem hasLineOfSight_true_iff {b : Board} {fromSq toSq : Position}
    (hf : PosIn fromSq) (ht : PosIn toSq) (hal : Aligned fromSq toSq)
    (hne : fromSq ≠ toSq) :
    hasLineOfSight b fromSq toSq = some true ↔
      ∀ p ∈ betweenSquares fromSq toSq, boardGet b p = none := by
  have h7 := losDist_le_7 hf ht
  rw [hasLineOfSight_eq_aux,
    hasLineOfSight_spec b fromSq toSq hal hne (by omega) 8 (by omega)]
  simp only [Option.some.injEq, decide_eq_true_eq]
  rw [betweenSquares]
  constructor
  · intro hall p hp
    obtain ⟨q, hq, rfl⟩ := List.mem_map.mp hp
    exact hall q hq
  · intro hall q hq
    exact hall ⟨q.1.toNat, q.2.toNat⟩ (List.mem_map.mpr ⟨q, hq, rfl⟩)

/-- A sliding-piece move between non-aligned squares fails the pattern test,
so (by `&&` short-circuit) the line-of-sight walk is never started for it. -/
theorem slide_not_aligned_invalid (b : Board) (fromSq toSq : Position)
    (back : Bool) (piece : SimplePiece) (hp : piece = B ∨ piece = R ∨ piece = Q)
    (hnal : ¬Aligned fromSq toSq) :
    isValidMove b fromSq toSq piece back = false := by
  rw [Aligned, losDx, losDy] at hnal
  push_neg at hnal
  obtain ⟨h1, h2, h3⟩ := hnal
  rcases hp with rfl | rfl | rfl
  · simp only [isValidMove]
    rw [decide_eq_false (by omega :
      ¬((fromSq.x : Int) - toSq.x).natAbs = ((toSq.y : Int) - fromSq.y).natAbs)]
    rw [Bool.false_and]
  · simp only [isValidMove]
    rw [decide_eq_false (by omega : ¬((fromSq.x : Int) - toSq.x).natAbs = 0)]
    rw [decide_eq_false (by omega : ¬((toSq.y : Int) - fromSq.y).natAbs = 0)]
    rw [Bool.false_or, Bool.false_and]
  · simp only [isValidMove]
    rw [decide_eq_false (by omega :
      ¬((fromSq.x : Int) - toSq.x).natAbs = ((toSq.y : Int) - fromSq.y).natAbs)]
    rw [decide_eq_false (by omega : ¬((fromSq.x : Int) - toSq.x).natAbs = 0)]
    rw [decide_eq_false (by omega : ¬((toSq.y : Int) - fromSq.y).natAbs = 0)]
    rw [Bool.false_or, Bool.false_or, Bool.false_and]

/-- C10: on distinct on-board squares sharing a row, column or diagonal —
the only squares the sliding-piece branches invoke the walk on, since
non-aligned squares fail the pattern test ahead of the `&&` — the
line-of-sight walk terminates within the Chebyshev-distance fuel (at most
7 steps), every strictly-intermediate square it inspects is on the board,
and it returns `true` exactly when all those squares are empty. -/
theorem c10_line_of_sight (b : Board) (fromSq toSq : Position)
    (hf : PosIn fromSq) (ht : PosIn toSq) (hne : fromSq ≠ toSq)
    (hal : Aligned fromSq toSq) :
    (1 ≤ losDist fromSq toSq ∧ losDist fromSq toSq ≤ 7) ∧
    (∀ p ∈ betweenSquares fromSq toSq, PosIn p) ∧
    (∃ r : Bool, hasLineOfSight b fromSq toSq = some r ∧
      hasLineOfSightAux b (losStep (losDx fromSq toSq))
        (losStep (losDy fromSq toSq)) (toSq.x : Int) (toSq.y : Int)
        (losDist fromSq toSq)
        ((fromSq.x : Int) + losStep (losDx fromSq toSq))
        ((fromSq.y : Int) + losStep (losDy fromSq toSq)) = some r) ∧
    (hasLineOfSight b fromSq toSq = some true ↔
      ∀ p ∈ betweenSquares fromSq toSq, boardGet b p = none) ∧
    (∀ (b' : Board) (f t : Position) (back : Bool) (piece : SimplePiece),
      piece = B ∨ piece = R ∨ piece = Q → ¬Aligned f t →
      isValidMove b' f t piece back = false) := by
  have h7 := losDist_le_7 hf ht
  have h1 := losDist_pos hne
  refine ⟨⟨h1, h7⟩, betweenSquares_posIn hf ht hal, ?_,
    hasLineOfSight_true_iff hf ht hal hne,
    fun b' f t back piece hp hnal =>
      slide_not_aligned_invalid b' f t back piece hp hnal⟩
  rw [hasLineOfSight_eq_aux]
  exact ⟨_, hasLineOfSight_spec b fromSq toSq hal hne (by omega) 8 (by omega),
    hasLineOfSight_spec b fromSq toSq hal hne (by omega) _ (le_refl _)⟩

/-- Witness for C10 on concrete squares: a1 to d4 on the empty board. -/
theorem c10_line_of_sight_witness :
    (PosIn ⟨0, 0⟩ ∧ PosIn ⟨3, 3⟩ ∧ (⟨0, 0⟩ : Position) ≠ ⟨3, 3⟩ ∧
      Aligned ⟨0, 0⟩ ⟨3, 3⟩) ∧
    ((1 ≤ losDist ⟨0, 0⟩ ⟨3, 3⟩ ∧ losDist ⟨0, 0⟩ ⟨3, 3⟩ ≤ 7) ∧
    (∀ p ∈ betweenSquares ⟨0, 0⟩ ⟨3, 3⟩, PosIn p) ∧
    (∃ r : Bool, hasLineOfSight emptyBoard ⟨0, 0⟩ ⟨3, 3⟩ = some r ∧
      hasLineOfSightAux emptyBoard (losStep (losDx ⟨0, 0⟩ ⟨3, 3⟩))
        (losStep (losDy ⟨0, 0⟩ ⟨3, 3⟩)) ((3 : Nat) : Int) ((3 : Nat) : Int)
        (losDist ⟨0, 0⟩ ⟨3, 3⟩)
        (((0 : Nat) : Int) + losStep (losDx ⟨0, 0⟩ ⟨3, 3⟩))
        (((0 : Nat) : Int) + losStep (losDy ⟨0, 0⟩ ⟨3, 3⟩)) = some r) ∧
    (hasLineOfSight emptyBoard ⟨0, 0⟩ ⟨3, 3⟩ = some true ↔
      ∀ p ∈ betweenSquares ⟨0, 0⟩ ⟨3, 3⟩, boardGet emptyBoard p = none) ∧
    (∀ (b' : Board) (f t : Position) (back : Bool) (piece : SimplePiece),
      piece = B ∨ piece = R ∨ piece = Q → ¬Aligned f t →
      isValidMove b' f t piece back = false)) :=
  ⟨⟨⟨by decide, by decide⟩, ⟨by decide, by decide⟩, by decide,
      Or.inr (Or.inr rfl)⟩,
    c10_line_of_sight emptyBoard ⟨0, 0⟩ ⟨3, 3⟩ ⟨by decide, by decide⟩
      ⟨by decide, by decide⟩ (by decide) (Or.inr (Or.inr rfl))⟩

/-- Abstract one-rank FEN decoding, forgetting piece identities: a digit
contributes that many empty cells, any other character one occupied cell
carrying the character itself. -/
def decodeCells : List Char → List (Option Char)
  | [] => []
  | c :: cs =>
    match charDigit c with
    | some d => List.replicate d none ++ decodeCells cs
    | none => some c :: decodeCells cs

/-- The number of board cells a rank string stands for: a digit counts its
value, a letter counts one. -/
def rankWeight (l : List Char) : Nat :=
  (l.map (fun c => (charDigit c).getD 1)).sum

theorem decodeCells_nil : decodeCells [] = [] := rfl

theorem repr_digit_data {n : Nat} (h1 : 1 ≤ n) (h8 : n ≤ 8) :
    (Nat.repr n).data = [Char.ofNat (48 + n)] := by
  interval_cases n <;> decide

theorem charDigit_ofNat {n : Nat} (h1 : 1 ≤ n) (h8 : n ≤ 8) :
    charDigit (Char.ofNat (48 + n)) = some n := by
  interval_cases n <;> decide

theorem charDigit_pieceChar (p : SimplePiece) : charDigit (pieceChar p) = none := by
  cases p <;> decide

theorem pieceChar_ne_one (p : SimplePiece) : pieceChar p ≠ '1' := by
  cases p <;> decide

theorem decodeCells_append :
    ∀ l1 l2 : List Char, decodeCells (l1 ++ l2) = decodeCells l1 ++ decodeCells l2 := by
  intro l1
  induction l1 with
  | nil => intro l2; rfl
  | cons c cs ih =>
    intro l2
    rw [List.cons_append, decodeCells, decodeCells]
    cases hcd : charDigit c
    · rw [ih]
      rfl
    · rw [ih]
      rw [List.append_assoc]

/-- Run-length encoding then decoding restores the rank: `n` pending empty
cells followed by the encoded cells. -/
theorem decode_rleOnes :
    ∀ (cs : List (Option SimplePiece)) (n : Nat), n + cs.length ≤ 8 →
      decodeCells (rleOnes (cs.map cellChar) n) =
        List.replicate n none ++ cs.map (Option.map pieceChar) := by
  intro cs
  induction cs with
  | nil =>
    intro n hn
    cases n with
    | zero => rfl
    | succ m =>
      rw [List.map_nil, rleOnes]
      rw [repr_digit_data (by omega) (by simp at hn; omega)]
      rw [decodeCells]
      rw [charDigit_ofNat (by omega) (by simp at hn; omega)]
      simp [decodeCells_nil]
  | cons cell cs ih =>
    intro n hn
    rw [List.map_cons, rleOnes]
    cases cell with
    | none =>
      rw [show cellChar none = '1' from rfl, if_pos rfl]
      rw [ih (n + 1) (by simp at hn ⊢; omega)]
      rw [List.replicate_succ']
      simp [List.append_assoc]
    | some p =>
      rw [if_neg (by exact pieceChar_ne_one p)]
      rw [decodeCells_append]
      have hpre : decodeCells (if n = 0 then [] else (Nat.repr n).data) =
          List.replicate n none := by
        cases hn0 : n with
        | zero => rfl
        | succ m =>
          rw [if_neg (by omega)]
          rw [repr_digit_data (by omega) (by simp at hn; omega)]
          rw [decodeCells]
          rw [charDigit_ofNat (by omega) (by simp at hn; omega)]
          simp [decodeCells_nil]
      rw [hpre]
      rw [decodeCells]
      rw [show cellChar (some p) = pieceChar p from rfl, charDigit_pieceChar]
      rw [ih 0 (by simp at hn ⊢; omega)]
      simp

/-- The client decoder computes `decodeCells` once piece identities are
forgotten; the counter only affects the generated `id` strings. -/
theorem fenRowCells_types :
    ∀ (l : List Char) (k : Nat),
      (fenRowCells l k).1.map (Option.map TrackedPiece.type) = decodeCells l := by
  intro l
  induction l with
  | nil => intro k; rfl
  | cons c cs ih =>
    intro k
    rw [fenRowCells, decodeCells]
    cases hcd : charDigit c with
    | none =>
      cases he : fenRowCells cs (k + 1) with
      | mk rest k2 =>
        dsimp only
        rw [List.map_cons]
        have := ih (k + 1)
        rw [he] at this
        rw [this]
        rfl
    | some d =>
      cases he : fenRowCells cs k with
      | mk rest k2 =>
        dsimp only
        rw [List.map_append, List.map_replicate]
        have := ih k
        rw [he] at this
        rw [this]
        rfl

theorem fenRows_types :
    ∀ (rows : List (List Char)) (k : Nat),
      (fenRows rows k).map (fun r => r.map (Option.map TrackedPiece.type)) =
        rows.map decodeCells := by
  intro rows
  induction rows with
  | nil => intro k; rfl
  | cons row rows ih =>
    intro k
    rw [fenRows]
    cases he : fenRowCells row k with
    | mk cells k2 =>
      dsimp only
      rw [List.map_cons, List.map_cons]
      have h1 := fenRowCells_types row k
      rw [he] at h1
      rw [h1, ih k2]

/-- Every character a rank encoding emits is a piece letter or a nonzero
digit up to 8. -/
theorem rleOnes_chars :
    ∀ (cs : List (Option SimplePiece)) (n : Nat), n + cs.length ≤ 8 →
      ∀ c ∈ rleOnes (cs.map cellChar) n,
        (∃ p, c = pieceChar p) ∨ ∃ d, 1 ≤ d ∧ d ≤ 8 ∧ c = Char.ofNat (48 + d) := by
  intro cs
  induction cs with
  | nil =>
    intro n hn c hc
    cases n with
    | zero => rw [List.map_nil, rleOnes] at hc; cases hc
    | succ m =>
      rw [List.map_nil, rleOnes,
        repr_digit_data (by omega) (by simp at hn; omega)] at hc
      rcases List.mem_singleton.mp hc with rfl
      exact Or.inr ⟨m + 1, by omega, by simp at hn; omega, rfl⟩
  | cons cell cs ih =>
    intro n hn c hc
    rw [List.map_cons, rleOnes] at hc
    cases cell with
    | none =>
      rw [show cellChar none = '1' from rfl, if_pos rfl] at hc
      exact ih (n + 1) (by simp at hn ⊢; omega) c hc
    | some p =>
      rw [if_neg (by exact pieceChar_ne_one p)] at hc
      rcases List.mem_append.mp hc with hc | hc
      · cases hn0 : n with
        | zero => rw [hn0] at hc; simp at hc
        | succ m =>
          rw [hn0, if_neg (by omega),
            repr_digit_data (by omega) (by simp at hn; omega)] at hc
          rcases List.mem_singleton.mp hc with rfl
          exact Or.inr ⟨m + 1, by omega, by simp at hn; omega, rfl⟩
      · rcases List.mem_cons.mp hc with rfl | hc
        · exact Or.inl ⟨p, rfl⟩
        · exact ih 0 (by simp at hn ⊢; omega) c hc

/-- Rank encodings contain neither separator character. -/
theorem rowFenChars_sep {row : List (Option SimplePiece)} (hlen : row.length ≤ 8) :
    ∀ c ∈ rowFenChars row, c ≠ '/' ∧ c ≠ ' ' := by
  intro c hc
  rcases rleOnes_chars row 0 (by omega) c hc with ⟨p, rfl⟩ | ⟨d, hd1, hd8, rfl⟩
  · cases p <;> exact ⟨by decide, by decide⟩
  · interval_cases d <;> exact ⟨by decide, by decide⟩

/-- A member of an intercalation is the separator or comes from a block. -/
theorem mem_intercalate_sep {α : Type} (sep : α) :
    ∀ (ls : List (List α)) (c : α), c ∈ List.intercalate [sep] ls →
      c = sep ∨ ∃ l ∈ ls, c ∈ l := by
  intro ls
  induction ls with
  | nil =>
    intro c hc
    rw [List.intercalate, List.intersperse] at hc
    cases hc
  | cons l ls ih =>
    intro c hc
    cases ls with
    | nil =>
      rw [List.intercalate, List.intersperse] at hc
      simp at hc
      exact Or.inr ⟨l, List.mem_cons_self _ _, hc⟩
    | cons l2 ls2 =>
      rw [List.intercalate, List.intersperse_cons_cons, List.flatten] at hc
      rcases List.mem_append.mp hc with hc | hc
      · exact Or.inr ⟨l, List.mem_cons_self _ _, hc⟩
      · rw [List.flatten] at hc
        rcases List.mem_append.mp hc with hc | hc
        · exact Or.inl (List.mem_singleton.mp hc)
        · rcases ih c (by rw [List.intercalate]; exact hc) with h | ⟨l', hl', hc'⟩
          · exact Or.inl h
          · exact Or.inr ⟨l', List.mem_cons_of_mem _ hl', hc'⟩

/-- `splitOn` at a character absent from the list is the identity. -/
theorem splitOn_eq_single {α : Type} [DecidableEq α] (a : α) (l : List α)
    (h : a ∉ l) : l.splitOn a = [l] := by
  rw [List.splitOn]
  refine List.splitOnP_eq_single _ _ ?_
  intro x hx
  simp only [beq_iff_eq]
  intro he
  rw [he] at hx
  exact h hx

theorem filterMap_id_replicate_none {α : Type} :
    ∀ d : Nat, (List.replicate d (none : Option α)).filterMap id = [] := by
  intro d
  induction d with
  | zero => rfl
  | succ d ih => rw [List.replicate_succ, List.filterMap_cons]; exact ih

theorem decodeCells_length :
    ∀ l : List Char, (decodeCells l).length = rankWeight l := by
  intro l
  induction l with
  | nil => rfl
  | cons c cs ih =>
    rw [decodeCells]
    cases hcd : charDigit c with
    | none =>
      simp only [List.length_cons, ih, rankWeight, List.map_cons, List.sum_cons,
        hcd, Option.getD_none]
      omega
    | some d =>
      simp only [List.length_append, List.length_replicate, ih, rankWeight,
        List.map_cons, List.sum_cons, hcd, Option.getD_some]

theorem decodeCells_filterMap :
    ∀ l : List Char, (decodeCells l).filterMap id =
      l.filter (fun c => (charDigit c).isNone) := by
  intro l
  induction l with
  | nil => rfl
  | cons c cs ih =>
    rw [decodeCells, List.filter_cons]
    cases hcd : charDigit c with
    | none =>
      rw [List.filterMap_cons]
      simp only [hcd, Option.isNone_none, if_pos]
      rw [ih]
      rfl
    | some d =>
      rw [List.filterMap_append, filterMap_id_replicate_none]
      simp only [hcd, Option.isNone_some, Bool.false_eq_true, if_neg]
      rw [List.nil_append, ih]
      simp

theorem filterMap_map_option {α β : Type} (f : α → β) :
    ∀ l : List (Option α),
      (l.map (Option.map f)).filterMap id = (l.filterMap id).map f := by
  intro l
  induction l with
  | nil => rfl
  | cons c cs ih =>
    cases c with
    | none => simpa using ih
    | some a => simpa using ih

theorem rankWeight_rowFenChars {row : List (Option SimplePiece)}
    (hlen : row.length ≤ 8) : rankWeight (rowFenChars row) = row.length := by
  rw [← decodeCells_length, rowFenChars, decode_rleOnes row 0 (by omega)]
  simp

theorem rowFenChars_letters {row : List (Option SimplePiece)}
    (hlen : row.length ≤ 8) :
    (rowFenChars row).filter (fun c => (charDigit c).isNone) =
      (row.filterMap id).map pieceChar := by
  rw [← decodeCells_filterMap, rowFenChars, decode_rleOnes row 0 (by omega)]
  rw [show List.replicate 0 (none : Option Char) = [] from rfl, List.nil_append]
  exact filterMap_map_option pieceChar row

/-- C7: for a well-formed 8×8 board, the FEN body splits at `'/'` into the
eight rank encodings; each rank's letters are the rank's pieces in file
order and its letter-count-plus-digit-sum is 8; and the client decoder
reconstructs exactly the original arrangement of piece kinds — in
particular the decoded piece count equals the occupied-cell count. -/
theorem c7_fen_roundtrip (b : Board) (hwf : BoardWF b) :
    (getFEN b).data.splitOn '/' = b.map rowFenChars ∧
    ((getFEN b).data.splitOn '/').length = 8 ∧
    (∀ row ∈ b,
      (rowFenChars row).filter (fun c => (charDigit c).isNone) =
        (row.filterMap id).map pieceChar ∧
      rankWeight (rowFenChars row) = 8) ∧
    (fenToBoard (getFEN b)).map (fun r => r.map (Option.map TrackedPiece.type)) =
      b.map (fun r => r.map (Option.map pieceChar)) ∧
    ((fenToBoard (getFEN b)).flatten.filterMap id).length = countPieces b := by
  obtain ⟨hblen, hrows⟩ := hwf
  have hdata : (getFEN b).data = List.intercalate ['/'] (b.map rowFenChars) := rfl
  have hsplit2 : (getFEN b).data.splitOn '/' = b.map rowFenChars := by
    rw [hdata]
    refine List.splitOn_intercalate _ '/' ?_ ?_
    · intro l hl
      obtain ⟨row, hrow, rfl⟩ := List.mem_map.mp hl
      intro hc
      exact (rowFenChars_sep (by rw [hrows row hrow]) _ hc).1 rfl
    · intro hmap
      rw [List.map_eq_nil_iff] at hmap
      rw [hmap] at hblen
      cases hblen
  have hsplit1 : (getFEN b).data.splitOn ' ' = [(getFEN b).data] := by
    refine splitOn_eq_single _ _ ?_
    intro hmem
    rw [hdata] at hmem
    rcases mem_intercalate_sep '/' _ _ hmem with h | ⟨l, hl, hc⟩
    · cases h
    · obtain ⟨row, hrow, rfl⟩ := List.mem_map.mp hl
      exact (rowFenChars_sep (by rw [hrows row hrow]) _ hc).2 rfl
  have hdecode :
      (fenToBoard (getFEN b)).map (fun r => r.map (Option.map TrackedPiece.type)) =
        b.map (fun r => r.map (Option.map pieceChar)) := by
    rw [fenToBoard, hsplit1]
    rw [List.headD_cons]
    rw [hsplit2]
    rw [fenRows_types]
    rw [List.map_map]
    refine List.map_congr_left ?_
    intro row hrow
    show decodeCells (rowFenChars row) = row.map (Option.map pieceChar)
    rw [rowFenChars, decode_rleOnes row 0 (by rw [hrows row hrow])]
    rw [show List.replicate 0 (none : Option Char) = [] from rfl, List.nil_append]
  refine ⟨hsplit2, by rw [hsplit2, List.length_map, hblen], ?_, hdecode, ?_⟩
  · intro row hrow
    exact ⟨rowFenChars_letters (by rw [hrows row hrow]),
      by rw [rankWeight_rowFenChars (by rw [hrows row hrow]), hrows row hrow]⟩
  · have hflat := congrArg List.flatten hdecode
    rw [← List.map_flatten, ← List.map_flatten] at hflat
    have := congrArg (fun l => (l.filterMap id).length) hflat
    simp only [filterMap_map_option, List.length_map] at this
    rw [countPieces]
    exact this

/-- Witness for C7 on a concrete board: the 3-piece board the demo run of
`generate` produces. -/
theorem c7_fen_roundtrip_witness :
    BoardWF (generate 3 demoGen demoRandStream).2.1.board ∧
    ((getFEN (generate 3 demoGen demoRandStream).2.1.board).data.splitOn '/' =
      (generate 3 demoGen demoRandStream).2.1.board.map rowFenChars ∧
    ((getFEN (generate 3 demoGen demoRandStream).2.1.board).data.splitOn '/').length = 8 ∧
    (∀ row ∈ (generate 3 demoGen demoRandStream).2.1.board,
      (rowFenChars row).filter (fun c => (charDigit c).isNone) =
        (row.filterMap id).map pieceChar ∧
      rankWeight (rowFenChars row) = 8) ∧
    (fenToBoard (getFEN (generate 3 demoGen demoRandStream).2.1.board)).map
        (fun r => r.map (Option.map TrackedPiece.type)) =
      (generate 3 demoGen demoRandStream).2.1.board.map
        (fun r => r.map (Option.map pieceChar)) ∧
    ((fenToBoard (getFEN (generate 3 demoGen demoRandStream).2.1.board)).flatten.filterMap
        id).length = countPieces (generate 3 demoGen demoRandStream).2.1.board) :=
  ⟨(generate_spec 3 demoGen demoRandStream (by decide)).1.1,
    c7_fen_roundtrip (generate 3 demoGen demoRandStream).2.1.board
      (generate_spec 3 demoGen demoRandStream (by decide)).1.1⟩
